import Mathlib

/-!
# Verification of the MarkusJx/csv CSV library

Shallow embedding of the escape-sequence codec
(`include/escape_sequence_generator.hpp`), the cell/row/document model
(`include/csv_cell.hpp`, `include/const_csv_row.hpp`, `include/csv_row.hpp`,
`include/basic_csv.hpp`) and the disk-backed table
(`include/basic_csv_file.hpp`).  Strings are `List Char`; the separator is an
explicit `Char` parameter (the C++ `Sep` template parameter, default `';'`).
Fallible operations return `Except CsvErr`.
-/

namespace MarkusjxCsv

/-- The exception kinds of `include/exceptions.hpp` that the embedded code can
raise: `parse_error` and `index_out_of_range_error`. -/
inductive CsvErr where
  | parse : CsvErr
  | indexOutOfRange : CsvErr
deriving DecidableEq, Repr

deriving instance DecidableEq for Except

/-! ## EscapeCodec: `escape_sequence_generator` -/

/-- Source `escape_sequence_generator::escape_character`: `"` maps to `""`, every
other character passes through. -/
def escape_character (c : Char) : List Char :=
  if c = '"' then ['"', '"'] else [c]

/-- Source `escape_sequence_generator::escape_string`: if the string contains a
newline, a double quote or the separator, wrap it in double quotes and escape
each character; otherwise return it unchanged. -/
def escape_string (sep : Char) (s : List Char) : List Char :=
  if '\n' ∈ s ∨ '"' ∈ s ∨ sep ∈ s then
    '"' :: (s.flatMap escape_character) ++ ['"']
  else
    s

/-- The scan loop of `unescape_string` with `only_quotes_tm = false`: walk the
string; at a `"` followed by another character, collapse `""` to `"` (the
`unescape_character` call converts only `"`); otherwise copy the character. -/
def collapseQuotes : List Char → List Char
  | [] => []
  | [c] => [c]
  | c :: d :: rest =>
    if c = '"' ∧ d = '"' then '"' :: collapseQuotes rest
    else c :: collapseQuotes (d :: rest)

/-- Source `escape_sequence_generator::unescape_string`: strip one wrapping quote
pair when present; with `only_quotes_tm = false` additionally collapse every
doubled quote of the interior. -/
def unescape_string (s : List Char) (only_quotes_tm : Bool) : List Char :=
  if only_quotes_tm then
    if 2 ≤ s.length ∧ s.head? = some '"' ∧ s.getLast? = some '"' then
      (s.drop 1).dropLast
    else s
  else
    collapseQuotes
      (if 2 ≤ s.length ∧ s.head? = some '"' ∧ s.getLast? = some '"' then
        (s.drop 1).dropLast
      else s)

/-- The loop of `escape_sequence_generator::find`: scan the suffix, toggling a
quote-parity flag (`p = true` means an odd number of `"` seen); report the
first delimiter found at even parity; at the end of the string fail if the
parity is odd, else report not-found (`npos`, modelled as `none`). -/
def findAux (d : Char) : List Char → Nat → Bool → Except CsvErr (Option Nat)
  | [], _, p => if p then .error .parse else .ok none
  | c :: rest, pos, p =>
    if c = '"' then findAux d rest (pos + 1) (!p)
    else if c = d ∧ p = false then .ok (some pos)
    else findAux d rest (pos + 1) p

/-- Source `escape_sequence_generator::find`: find the next delimiter at even quote
parity, starting at `offset`. -/
def find (s : List Char) (offset : Nat) (d : Char) : Except CsvErr (Option Nat) :=
  findAux d (s.drop offset) offset false

/-- The do/while loop of `escape_sequence_generator::splitString`, with a
structural fuel argument (`s.length + 1` is always enough, since each
iteration moves `prev` strictly forward): find the next delimiter, cut out
the token, continue
while `pos < s.length ∧ pos + 1 < s.length`. -/
def splitLoop (d : Char) (s : List Char) : Nat → Nat → Except CsvErr (List (List Char))
  | _, 0 => .error .parse
  | prev, fuel + 1 =>
    match find s prev d with
    | .error e => .error e
    | .ok posOpt =>
      let pos := match posOpt with | some p => p | none => s.length
      let token := (s.drop prev).take (pos - prev)
      if pos < s.length ∧ pos + 1 < s.length then
        match splitLoop d s (pos + 1) fuel with
        | .error e => .error e
        | .ok ts => .ok (token :: ts)
      else
        .ok [token]

/-- Source `escape_sequence_generator::splitString`: run the split loop from offset
0; if the string is non-empty, ends with the delimiter character and the
delimiter is not `'\n'`, append one extra empty token. -/
def splitString (s : List Char) (d : Char) : Except CsvErr (List (List Char)) :=
  match splitLoop d s 0 (s.length + 1) with
  | .error e => .error e
  | .ok ts =>
    .ok (if s ≠ [] ∧ s.getLast? = some d ∧ d ≠ '\n' then ts ++ [[]] else ts)

/-! ## Cell: `csv_cell` -/

/-- Source `csv_cell`: stores one field in escaped (raw) form. -/
structure Cell where
  value : List Char
deriving DecidableEq, Repr

/-- Source `csv_cell::parse`: store the token verbatim. -/
def Cell.parse (v : List Char) : Cell := ⟨v⟩

/-- Source `csv_cell(std::nullptr_t)`: the empty cell. -/
def cellNull : Cell := ⟨[]⟩

/-- Source `csv_cell(const T &val)`: construct from a string value, escaping it. -/
def Cell.ofString (sep : Char) (s : List Char) : Cell := ⟨escape_string sep s⟩

/-- Source `csv_cell::rawValue`: the stored escaped form, verbatim. -/
def Cell.rawValue (c : Cell) : List Char := c.value

/-- Source `csv_cell::operator T()`: the unescaped string value. -/
def Cell.toStr (c : Cell) : List Char := unescape_string c.value false

/-- Source `csv_cell::empty`: whether the unescaped value is empty. -/
def Cell.isEmpty (c : Cell) : Bool := c.toStr.isEmpty

/-- Source `csv_cell::operator==`: cells compare equal iff their unescaped string
values agree. -/
def cellEq (a b : Cell) : Bool := a.toStr = b.toStr

/-! ## Row: `const_csv_row` / `csv_row` -/

/-- Source `csv_row` / `const_csv_row`: an ordered sequence of cells. -/
structure Row where
  cells : List Cell
deriving DecidableEq, Repr

/-- The empty row, `csv_row(nullptr)`. -/
def rowNull : Row := ⟨[]⟩

/-- Source `const_csv_row::min_size`: the cell count excluding the trailing run of
empty cells. -/
def Row.min_size (r : Row) : Nat :=
  (r.cells.reverse.dropWhile Cell.isEmpty).length

/-- Source `csv_row::parse`: an empty string parses to a row with no cells; otherwise
split on the separator and store each token as a cell. -/
def Row.parse (sep : Char) (v : List Char) : Except CsvErr Row :=
  if v = [] then .ok ⟨[]⟩
  else
    match splitString v sep with
    | .error e => .error e
    | .ok toks => .ok ⟨toks.map Cell.parse⟩

/-- Join pieces with a separator between consecutive pieces and none after
the last one (the `if (i < (max - 1)) ss << Sep` pattern of
`to_string_impl`, and `std::endl` between rows in `basic_csv`). -/
def joinSep (sep : List Char) : List (List Char) → List Char
  | [] => []
  | [f] => f
  | f :: g :: t => f ++ sep ++ joinSep sep (g :: t)

/-- Source `const_csv_row::to_string_impl`: render `max(min_size, len)` fields —
the cell's raw value when the index is within `cells`, nothing otherwise —
joined by the separator, with no separator after the last field. -/
def Row.toStringPadded (sep : Char) (r : Row) (len : Nat) : List Char :=
  let m := Nat.max r.min_size len
  joinSep [sep] ((List.range m).map fun i => (r.cells.getD i cellNull).rawValue)

/-- Source `const_csv_row::operator==`: equal min sizes and cellwise-equal cells up
to that min size. -/
def rowEq (a b : Row) : Bool :=
  a.min_size = b.min_size ∧
    ∀ i ∈ List.range a.min_size, cellEq (a.cells.getD i cellNull) (b.cells.getD i cellNull)

/-- Source `csv_row::at` (mutable): grow the row with empty cells up to and
including `index` when it is out of range, then return the cell there.  The
first component is the updated row, the second the returned cell. -/
def Row.atGrow (r : Row) (index : Nat) : Row × Cell :=
  let cells' :=
    if r.cells.length ≤ index then
      r.cells ++ List.replicate (index + 1 - r.cells.length) cellNull
    else r.cells
  (⟨cells'⟩, cells'.getD index cellNull)

/-! ## Document: `basic_csv` -/

/-- Source `basic_csv`: an ordered sequence of rows. -/
structure Csv where
  rows : List Row
deriving DecidableEq, Repr

/-- Source `basic_csv::max_row_length`: the largest row `min_size`. -/
def Csv.max_row_length (d : Csv) : Nat :=
  d.rows.foldl (fun m r => Nat.max m r.min_size) 0

/-- Source `basic_csv::to_string_impl`: render every row padded to the document's
`max_row_length`, joined by newlines. -/
def Csv.toString (sep : Char) (d : Csv) : List Char :=
  joinSep ['\n'] (d.rows.map fun r => r.toStringPadded sep d.max_row_length)

/-- A for-loop over a list whose body can throw: used for
`for (const T &row : ...) rows.push_back(...)`. -/
def mapExcept (f : List Char → Except CsvErr Row) : List (List Char) → Except CsvErr (List Row)
  | [] => .ok []
  | a :: as =>
    match f a with
    | .error e => .error e
    | .ok b =>
      match mapExcept f as with
      | .error e => .error e
      | .ok bs => .ok (b :: bs)

/-- Source `basic_csv::parseImpl`: split on `'\n'` and parse each line as a row. -/
def Csv.parse (sep : Char) (v : List Char) : Except CsvErr Csv :=
  match splitString v '\n' with
  | .error e => .error e
  | .ok lines =>
    match mapExcept (Row.parse sep) lines with
    | .error e => .error e
    | .ok rows => .ok ⟨rows⟩

/-- Source `basic_csv::operator==`: equal row counts and rowwise-equal rows. -/
def csvEq (a b : Csv) : Bool :=
  a.rows.length = b.rows.length ∧
    ∀ i ∈ List.range a.rows.length, rowEq (a.rows.getD i rowNull) (b.rows.getD i rowNull)

/-! ## FileTable: `basic_csv_file`

The backing file is modelled by its raw character content; reading line `n`
(`gotoLine` + `std::getline`) and the `while (std::getline(...))` loop of
`writeCacheToFile` both see the file as the list of `'\n'`-terminated pieces,
where a trailing newline does not open a further (empty) line.  The cache
(`std::map<uint64_t, csv_row>`) is an association list with unique keys.
`uint64_t` subtraction in `getMaxLineIndex` wraps modulo `2^64`. -/

/-- Source `2^64`, the modulus of `uint64_t` arithmetic. -/
def u64 : Nat := 18446744073709551616

/-- Split file content at every `'\n'` (accumulator form). -/
def splitNlAux : List Char → List Char → List (List Char)
  | [], acc => [acc.reverse]
  | c :: rest, acc =>
    if c = '\n' then acc.reverse :: splitNlAux rest []
    else splitNlAux rest (c :: acc)

/-- The lines of the file as successive `std::getline` calls deliver them: an
empty file has no lines, and a trailing `'\n'` does not start a further empty
line (`getline` at end-of-file fails). -/
def getlineLines (content : List Char) : List (List Char) :=
  if content = [] then []
  else
    let parts := splitNlAux content []
    if content.getLast? = some '\n' then parts.dropLast else parts

/-- Source `basic_csv_file::getLastFileLineIndex`: the number of `'\n'` characters in
the file. -/
def countNl (content : List Char) : Nat := content.count '\n'

/-- Source `basic_csv_file`: pending deletions, cache threshold, row cache, backing
file content and current line index. -/
structure FileTable where
  toDelete : List Nat
  maxCached : Nat
  cache : List (Nat × Row)
  content : List Char
  currentLine : Nat
deriving DecidableEq, Repr

/-- The `basic_csv_file` constructor over a file with the given content:
empty cache and delete list, `currentLine = getLastFileLineIndex()`. -/
def openTable (content : List Char) (maxCached : Nat) : FileTable :=
  ⟨[], maxCached, [], content, countNl content⟩

/-- Source `std::map::find` on the cache. -/
def cacheFind? (cache : List (Nat × Row)) (k : Nat) : Option Row :=
  (cache.find? fun p => p.1 = k).map (·.2)

/-- Source `std::map::erase` of one key on the cache. -/
def cacheErase (cache : List (Nat × Row)) (k : Nat) : List (Nat × Row) :=
  cache.filter fun p => ¬ p.1 = k

/-- Source `cache.rbegin()->first`: the largest key of a non-empty cache. -/
def cacheMax (cache : List (Nat × Row)) : Nat :=
  cache.foldl (fun m p => Nat.max m p.1) 0

/-- Source `basic_csv_file::translateLine`: walk `toDelete` in order, incrementing
the line for every entry `≤` the (current) line, stopping at the first larger
entry. -/
def translateLine : List Nat → Nat → Nat
  | [], line => line
  | d :: ds, line => if d ≤ line then translateLine ds (line + 1) else line

/-- Source `basic_csv_file::getCacheSize`: cache entries plus pending deletions. -/
def getCacheSize (ft : FileTable) : Nat := ft.cache.length + ft.toDelete.length

/-- Source `basic_csv_file::getTranslatedMaxLineIndex`: the largest of the last file
line index, the largest cache key (when the cache is non-empty) and
`currentLine`. -/
def getTranslatedMaxLineIndex (ft : FileTable) : Nat :=
  if ft.cache.isEmpty then Nat.max (countNl ft.content) ft.currentLine
  else Nat.max (Nat.max (countNl ft.content) (cacheMax ft.cache)) ft.currentLine

/-- Source `basic_csv_file::getMaxLineIndex`: the translated max index minus the
number of pending deletions, in wrapping `uint64_t` arithmetic. -/
def getMaxLineIndex (ft : FileTable) : Nat :=
  (getTranslatedMaxLineIndex ft + u64 - ft.toDelete.length % u64) % u64

/-- Source `basic_csv_file::size`: `getMaxLineIndex() + 1` (in `uint64_t`), except
that an empty file with the result 1 counts as 0 rows. -/
def FileTable.size (ft : FileTable) : Nat :=
  let res := (getMaxLineIndex ft + 1) % u64
  if res = 1 ∧ ft.content = [] then 0 else res

/-- Source `basic_csv_file::getLineFromFile`: bounds-check against the translated
max index, then return the cached row for the (already translated) line if
present, else read the physical line and parse it (an empty or missing line
is the empty row). -/
def getLineFromFile (sep : Char) (ft : FileTable) (line : Nat) : Except CsvErr Row :=
  if line > getTranslatedMaxLineIndex ft then .error .indexOutOfRange
  else
    match cacheFind? ft.cache line with
    | some r => .ok r
    | none =>
      let value := (getlineLines ft.content).getD line []
      if value = [] then .ok ⟨[]⟩ else Row.parse sep value

/-- Source `basic_csv_file::at(uint64_t) const` (also `operator[] const`):
bounds-check against the logical max index, translate, read. -/
def atConst (sep : Char) (ft : FileTable) (line : Nat) : Except CsvErr Row :=
  if line > getMaxLineIndex ft then .error .indexOutOfRange
  else getLineFromFile sep ft (translateLine ft.toDelete line)

/-- Source `basic_csv_file::max_row_length`: the largest cell count over `at(i)` for
`i < size()`. -/
def fileMaxRowLength (sep : Char) (ft : FileTable) : Except CsvErr Nat :=
  ((List.range ft.size).mapM fun i => atConst sep ft i).map fun rows =>
    rows.foldl (fun m r => Nat.max m r.cells.length) 0

/-- Append one rendered line to the output of `writeCacheToFile`, prepending
`std::endl` when a line was already written. -/
def appendLine (out : List Char) (lw : Bool) (s : List Char) : List Char × Bool :=
  (out ++ (if lw then '\n' :: s else s), true)

/-- The first loop of `writeCacheToFile`: walk the physical file lines,
skipping lines marked for deletion; for every kept line write the cached row
(evicting it) when one exists, else re-parse and re-render the original line.
Returns the output text, the line-written flag and the remaining cache. -/
def flushPhase1 (sep : Char) (toDelete : List Nat) (maxLength : Nat) :
    List (List Char) → Nat → List Char → Bool → List (Nat × Row) →
    Except CsvErr (List Char × Bool × List (Nat × Row))
  | [], _, out, lw, cache => .ok (out, lw, cache)
  | line :: rest, i, out, lw, cache =>
    if i ∈ toDelete then flushPhase1 sep toDelete maxLength rest (i + 1) out lw cache
    else
      match cacheFind? cache i with
      | none =>
        match Row.parse sep line with
        | .error e => .error e
        | .ok r =>
          let ol := appendLine out lw (r.toStringPadded sep maxLength)
          flushPhase1 sep toDelete maxLength rest (i + 1) ol.1 ol.2 cache
      | some r =>
        let ol := appendLine out lw (r.toStringPadded sep maxLength)
        flushPhase1 sep toDelete maxLength rest (i + 1) ol.1 ol.2 (cacheErase cache i)

/-- The second loop of `writeCacheToFile` when the cache still holds entries:
for every non-deleted index up to the translated max, write the cached row or
an empty row. -/
def flushPhase2Cache (sep : Char) (toDelete : List Nat) (maxLength : Nat)
    (cache : List (Nat × Row)) :
    List Nat → List Char → Bool → List Char × Bool
  | [], out, lw => (out, lw)
  | i :: rest, out, lw =>
    if i ∈ toDelete then flushPhase2Cache sep toDelete maxLength cache rest out lw
    else
      let s := ((cacheFind? cache i).getD rowNull).toStringPadded sep maxLength
      let ol := appendLine out lw s
      flushPhase2Cache sep toDelete maxLength cache rest ol.1 ol.2

/-- The second loop of `writeCacheToFile` when the cache is empty: for every
non-deleted index up to the translated max, append a newline and an empty row
if a line was already written, else only mark the flag. -/
def flushPhase2NoCache (sep : Char) (toDelete : List Nat) (maxLength : Nat) :
    List Nat → List Char → Bool → List Char × Bool
  | [], out, lw => (out, lw)
  | i :: rest, out, lw =>
    if i ∈ toDelete then flushPhase2NoCache sep toDelete maxLength rest out lw
    else if lw then
      flushPhase2NoCache sep toDelete maxLength rest
        (out ++ '\n' :: rowNull.toStringPadded sep maxLength) lw
    else flushPhase2NoCache sep toDelete maxLength rest out true

/-- Source `basic_csv_file::writeCacheToFile`: rewrite the file (phase 1 over the
physical lines, then the appropriate second phase for indices beyond them,
using the translated max of the partially-evicted state), clear cache and
delete list, and reset `currentLine` to the new last file line index. -/
def writeCacheToFile (sep : Char) (ft : FileTable) : Except CsvErr FileTable :=
  match fileMaxRowLength sep ft with
  | .error e => .error e
  | .ok maxLength =>
    let lines := getlineLines ft.content
    match flushPhase1 sep ft.toDelete maxLength lines 0 [] false ft.cache with
    | .error e => .error e
    | .ok (out, lw, cache1) =>
      let mid : FileTable :=
        { ft with cache := cache1 }
      let maxIdx := getTranslatedMaxLineIndex mid
      let idxs := List.range' lines.length (maxIdx + 1 - lines.length)
      let res :=
        if cache1.isEmpty then
          flushPhase2NoCache sep ft.toDelete maxLength idxs out lw
        else
          flushPhase2Cache sep ft.toDelete maxLength cache1 idxs out lw
      .ok { toDelete := [], maxCached := ft.maxCached, cache := [],
            content := res.1, currentLine := countNl res.1 }

/-- Source `basic_csv_file::flush`: rewrite the file when the cache or delete list
is non-empty, or the line bookkeeping is out of sync with the file. -/
def FileTable.flush (sep : Char) (ft : FileTable) : Except CsvErr FileTable :=
  if getCacheSize ft > 0 ∨ getMaxLineIndex ft < ft.currentLine ∨
      ft.currentLine ≠ countNl ft.content then
    writeCacheToFile sep ft
  else .ok ft

/-- Source `basic_csv_file::erase`: bounds-check against the logical max index,
translate the index, drop any cache entry at the translated (physical) index,
record it in the sorted delete list, and flush when the combined cache size
reaches the threshold. -/
def FileTable.erase (sep : Char) (ft : FileTable) (index : Nat) : Except CsvErr FileTable :=
  if index > getMaxLineIndex ft then .error .indexOutOfRange
  else
    let t := translateLine ft.toDelete index
    let ft' : FileTable :=
      { ft with cache := cacheErase ft.cache t,
                toDelete := List.insertionSort (· ≤ ·) (ft.toDelete ++ [t]) }
    if getCacheSize ft' ≥ ft.maxCached then ft'.flush sep else .ok ft'

/-! ## Specification-side predicates -/

/-- A delimiter occurrence "outside a quoted span": position `j` of `l` holds
the delimiter (which is not itself a quote) and the prefix before it contains
an even number of double quotes. -/
def goodDelim (l : List Char) (j : Nat) (d : Char) : Prop :=
  l.get? j = some d ∧ d ≠ '"' ∧ (l.take j).count '"' % 2 = 0

instance (l : List Char) (j : Nat) (d : Char) : Decidable (goodDelim l j d) := by
  unfold goodDelim; infer_instance

/-- Parity bookkeeping: flip `b` once per double quote of `f`. -/
def flipB (f : List Char) (b : Bool) : Bool :=
  if f.count '"' % 2 = 0 then b else !b

/-- Scan check: no occurrence of the delimiter `d` at even quote parity,
starting from parity flag `b`. -/
def noEvenDelim (d : Char) : List Char → Bool → Bool
  | [], _ => true
  | c :: rest, b =>
    if c = '"' then noEvenDelim d rest (!b)
    else if c = d ∧ b = false then false
    else noEvenDelim d rest b

/-- A field is inert for delimiter `d`: balanced quotes and no `d` at even
quote parity.  Every canonically escaped field is inert for the separator and
for `'\n'`. -/
def Inert (d : Char) (l : List Char) : Prop :=
  l.count '"' % 2 = 0 ∧ noEvenDelim d l false = true

instance (d : Char) (l : List Char) : Decidable (Inert d l) := by
  unfold Inert; infer_instance

/-- The number of occurrences of `d` at even quote parity, starting from
parity flag `b`. -/
def countEvenSeps (d : Char) : List Char → Bool → Nat
  | [], _ => 0
  | c :: rest, b =>
    if c = '"' then countEvenSeps d rest (!b)
    else (if c = d ∧ b = false then 1 else 0) + countEvenSeps d rest b

/-- The line ends with the character `d` and that final occurrence is at even
quote parity. -/
def endsEvenSep (d : Char) (l : List Char) : Prop :=
  l.getLast? = some d ∧ l.count '"' % 2 = 0

instance (d : Char) (l : List Char) : Decidable (endsEvenSep d l) := by
  unfold endsEvenSep; infer_instance

/-- The `csv_cell` invariant of the specification: the stored text is a
canonically escaped form of some logical value. -/
def CellCanonical (sep : Char) (c : Cell) : Prop :=
  ∃ s, c.value = escape_string sep s

/-- A document all of whose cells satisfy the `csv_cell` invariant. -/
def CsvCanonical (sep : Char) (d : Csv) : Prop :=
  ∀ r ∈ d.rows, ∀ c ∈ r.cells, CellCanonical sep c

/-! ## Unescape after escape (claim C3) -/

theorem collapseQuotes_cons (c : Char) (hc : c ≠ '"') (l : List Char) :
    collapseQuotes (c :: l) = c :: collapseQuotes l := by
  cases l with
  | nil => rfl
  | cons d rest =>
    have hnot : ¬(c = '"' ∧ d = '"') := fun h => hc h.1
    simp only [collapseQuotes, if_neg hnot]

theorem collapseQuotes_pair (l : List Char) :
    collapseQuotes ('"' :: '"' :: l) = '"' :: collapseQuotes l := by
  simp [collapseQuotes]

theorem collapseQuotes_no_quote (s : List Char) (h : '"' ∉ s) :
    collapseQuotes s = s := by
  induction s with
  | nil => rfl
  | cons c rest ih =>
    have hc : c ≠ '"' := fun e => h (e ▸ List.mem_cons_self c rest)
    rw [collapseQuotes_cons c hc, ih fun m => h (List.mem_cons_of_mem c m)]

theorem collapseQuotes_flatMap (s : List Char) :
    collapseQuotes (s.flatMap escape_character) = s := by
  induction s with
  | nil => rfl
  | cons c rest ih =>
    by_cases hc : c = '"'
    · subst hc
      have he : escape_character '"' = ['"', '"'] := rfl
      rw [List.flatMap_cons, he, List.cons_append, List.cons_append, List.nil_append,
        collapseQuotes_pair, ih]
    · have he : escape_character c = [c] := by simp [escape_character, hc]
      rw [List.flatMap_cons, he, List.cons_append, List.nil_append,
        collapseQuotes_cons c hc, ih]

/-- Claim C3: full unescaping (`only_quotes_tm = false`) is a left inverse of
RFC 4180 escaping: for every separator and every string `s`,
`unescape_string(escape_string(s), false) = s`. -/
theorem C3_unescape_after_escape (sep : Char) (s : List Char) :
    unescape_string (escape_string sep s) false = s := by
  by_cases hsp : '\n' ∈ s ∨ '"' ∈ s ∨ sep ∈ s
  · rw [escape_string, if_pos hsp]
    have hcond : 2 ≤ ('"' :: s.flatMap escape_character ++ ['"']).length ∧
        ('"' :: s.flatMap escape_character ++ ['"']).head? = some '"' ∧
        ('"' :: s.flatMap escape_character ++ ['"']).getLast? = some '"' := by
      refine ⟨by simp, rfl, ?_⟩
      rw [show '"' :: s.flatMap escape_character ++ ['"'] =
            ('"' :: s.flatMap escape_character) ++ ['"'] from rfl]
      exact List.getLast?_concat _
    simp only [unescape_string, Bool.false_eq_true, if_false, if_pos hcond]
    rw [show ('"' :: s.flatMap escape_character ++ ['"']).drop 1 =
          s.flatMap escape_character ++ ['"'] from rfl]
    rw [List.dropLast_concat]
    exact collapseQuotes_flatMap s
  · rw [escape_string, if_neg hsp]
    have hq : '"' ∉ s := fun h => hsp (Or.inr (Or.inl h))
    have hcond : ¬(2 ≤ s.length ∧ s.head? = some '"' ∧ s.getLast? = some '"') := by
      rintro ⟨-, hh, -⟩
      exact hq (List.mem_of_mem_head? hh)
    simp only [unescape_string, Bool.false_eq_true, if_false, if_neg hcond]
    exact collapseQuotes_no_quote s hq

/-! ## Row autogrow (claim C7) -/

theorem dropWhile_replicate_append {α : Type} (p : α → Bool) (a : α)
    (hp : p a = true) (k : Nat) (t : List α) :
    List.dropWhile p (List.replicate k a ++ t) = List.dropWhile p t := by
  induction k with
  | zero => rfl
  | succ n ih => simp [List.replicate_succ, List.dropWhile_cons, hp, ih]

theorem cellNull_isEmpty : cellNull.isEmpty = true := rfl

theorem min_size_append_nulls (cells : List Cell) (k : Nat) :
    Row.min_size ⟨cells ++ List.replicate k cellNull⟩ = Row.min_size ⟨cells⟩ := by
  unfold Row.min_size
  simp only [List.reverse_append, List.reverse_replicate]
  rw [dropWhile_replicate_append Cell.isEmpty cellNull cellNull_isEmpty]

/-- Claim C7: mutable `csv_row::at(i)` on a row of size `≤ i` grows the row
with empty cells up to and including index `i` (so the new size is `i + 1`),
returns the empty cell at index `i`, and leaves `min_size()` unchanged. -/
theorem C7_row_at_autogrow (r : Row) (i : Nat) (h : r.cells.length ≤ i) :
    (r.atGrow i).1.cells.length = i + 1 ∧
    (r.atGrow i).2 = cellNull ∧
    (r.atGrow i).2.isEmpty = true ∧
    (r.atGrow i).1.min_size = r.min_size := by
  unfold Row.atGrow
  simp only [if_pos h]
  have hrep : ∀ (k n : Nat), (List.replicate k cellNull).getD n cellNull = cellNull := by
    intro k
    induction k with
    | zero => intro n; simp [List.getD]
    | succ m ih =>
      intro n
      cases n with
      | zero => simp [List.replicate_succ, List.getD]
      | succ j => simp only [List.replicate_succ, List.getD] at ih ⊢; exact ih j
  refine ⟨?_, ?_, ?_, ?_⟩
  · simp only [List.length_append, List.length_replicate]; omega
  · rw [List.getD_append_right _ _ _ _ h]
    exact hrep _ _
  · rw [List.getD_append_right _ _ _ _ h, hrep]
    exact cellNull_isEmpty
  · exact min_size_append_nulls r.cells _

/-- Witness for claim C7: on the empty row, `at(5)` creates 6 cells, returns
the empty 6th cell, and `min_size()` stays 0. -/
theorem C7_row_at_autogrow_witness :
    rowNull.cells.length ≤ 5 ∧
    ((rowNull.atGrow 5).1.cells.length = 5 + 1 ∧
      (rowNull.atGrow 5).2 = cellNull ∧
      (rowNull.atGrow 5).2.isEmpty = true ∧
      (rowNull.atGrow 5).1.min_size = rowNull.min_size) ∧
    rowNull.min_size = 0 :=
  ⟨by decide, C7_row_at_autogrow rowNull 5 (by decide), by decide⟩

/-! ## Characterization of `find` (claim C4) -/

/-- Parity-generalized `goodDelim`: starting from parity flag `b`. -/
def goodDelimB (l : List Char) (j : Nat) (d : Char) (b : Bool) : Prop :=
  l.get? j = some d ∧ d ≠ '"' ∧ ((l.take j).count '"' % 2 = if b then 1 else 0)

theorem goodDelimB_false (l : List Char) (j : Nat) (d : Char) :
    goodDelimB l j d false ↔ goodDelim l j d := by
  simp [goodDelimB, goodDelim]

theorem goodDelimB_nil (j : Nat) (d : Char) (b : Bool) : ¬ goodDelimB [] j d b := by
  intro h
  simp [goodDelimB] at h

theorem goodDelimB_quote_zero (rest : List Char) (d : Char) (b : Bool) :
    ¬ goodDelimB ('"' :: rest) 0 d b := by
  rintro ⟨h1, h2, -⟩
  exact h2 (Option.some_injective _ h1).symm

theorem goodDelimB_quote_succ (rest : List Char) (j : Nat) (d : Char) (b : Bool) :
    goodDelimB ('"' :: rest) (j + 1) d b ↔ goodDelimB rest j d (!b) := by
  unfold goodDelimB
  rw [List.get?_cons_succ, List.take_succ_cons]
  constructor
  · rintro ⟨h1, h2, h3⟩
    refine ⟨h1, h2, ?_⟩
    rw [List.count_cons_self] at h3
    cases b <;> simp_all <;> omega
  · rintro ⟨h1, h2, h3⟩
    refine ⟨h1, h2, ?_⟩
    rw [List.count_cons_self]
    cases b <;> simp_all <;> omega

theorem goodDelimB_other_zero (c : Char) (rest : List Char) (d : Char) (b : Bool)
    (hc : c ≠ '"') :
    goodDelimB (c :: rest) 0 d b ↔ (c = d ∧ b = false) := by
  unfold goodDelimB
  rw [List.get?_cons_zero, List.take_zero]
  constructor
  · rintro ⟨h1, -, h3⟩
    refine ⟨Option.some_injective _ h1, ?_⟩
    cases b
    · rfl
    · simp at h3
  · rintro ⟨h1, h2⟩
    subst h1 h2
    exact ⟨rfl, hc, by simp⟩

theorem goodDelimB_other_succ (c : Char) (rest : List Char) (j : Nat) (d : Char)
    (b : Bool) (hc : c ≠ '"') :
    goodDelimB (c :: rest) (j + 1) d b ↔ goodDelimB rest j d b := by
  unfold goodDelimB
  rw [List.get?_cons_succ, List.take_succ_cons]
  have hcc : (c :: rest.take j).count '"' = (rest.take j).count '"' :=
    List.count_cons_of_ne (Ne.symm hc) _
  rw [hcc]

/-- Full characterization of the `findAux` loop, parity-generalized: the
three possible results correspond exactly to (error) no delimiter at even
parity and an odd quote count, (found) the least position holding the
delimiter at even parity, and (not found) no such position and an even quote
count. -/
theorem findAux_spec (d : Char) (l : List Char) (pos : Nat) (b : Bool) :
    (findAux d l pos b = .error .parse ↔
      (∀ j, ¬ goodDelimB l j d b) ∧ (l.count '"' + (if b then 1 else 0)) % 2 = 1) ∧
    (∀ q, findAux d l pos b = .ok (some q) ↔
      ∃ j, q = pos + j ∧ goodDelimB l j d b ∧ ∀ k < j, ¬ goodDelimB l k d b) ∧
    (findAux d l pos b = .ok none ↔
      (∀ j, ¬ goodDelimB l j d b) ∧ (l.count '"' + (if b then 1 else 0)) % 2 = 0) := by
  induction l generalizing pos b with
  | nil =>
    refine ⟨?_, ?_, ?_⟩
    · cases b <;> simp [findAux, goodDelimB_nil]
    · intro q; cases b <;> simp [findAux, goodDelimB_nil]
    · cases b <;> simp [findAux, goodDelimB_nil]
  | cons c rest ih =>
    by_cases hc : c = '"'
    · subst hc
      have hrw : findAux d ('"' :: rest) pos b = findAux d rest (pos + 1) (!b) := by
        simp [findAux]
      have hall : (∀ j, ¬ goodDelimB ('"' :: rest) j d b) ↔
          (∀ j, ¬ goodDelimB rest j d (!b)) := by
        constructor
        · intro h j
          rw [← goodDelimB_quote_succ]
          exact h (j + 1)
        · intro h j
          cases j with
          | zero => exact goodDelimB_quote_zero rest d b
          | succ k => rw [goodDelimB_quote_succ]; exact h k
      have hcnt : (('"' :: rest).count '"' + (if b then 1 else 0)) % 2 =
          (rest.count '"' + (if !b then 1 else 0)) % 2 := by
        rw [List.count_cons_self]
        cases b <;> simp <;> omega
      obtain ⟨iherr, ihsome, ihnone⟩ := ih (pos + 1) (!b)
      refine ⟨?_, ?_, ?_⟩
      · rw [hrw, iherr, hall, hcnt]
      · intro q
        rw [hrw, ihsome q]
        constructor
        · rintro ⟨j, rfl, hg, hmin⟩
          refine ⟨j + 1, by omega, (goodDelimB_quote_succ rest j d b).mpr hg, ?_⟩
          intro k hk
          cases k with
          | zero => exact goodDelimB_quote_zero rest d b
          | succ k' =>
            rw [goodDelimB_quote_succ]
            exact hmin k' (by omega)
        · rintro ⟨j, rfl, hg, hmin⟩
          cases j with
          | zero => exact absurd hg (goodDelimB_quote_zero rest d b)
          | succ j' =>
            refine ⟨j', by omega, (goodDelimB_quote_succ rest j' d b).mp hg, ?_⟩
            intro k hk
            have := hmin (k + 1) (by omega)
            rw [goodDelimB_quote_succ] at this
            exact this
      · rw [hrw, ihnone, hall, hcnt]
    · by_cases hd : c = d ∧ b = false
      · have hrw : findAux d (c :: rest) pos b = .ok (some pos) := by
          obtain ⟨rfl, rfl⟩ := hd
          simp [findAux, hc]
        have hg0 : goodDelimB (c :: rest) 0 d b :=
          (goodDelimB_other_zero c rest d b hc).mpr hd
        refine ⟨?_, ?_, ?_⟩
        · rw [hrw]
          simp only [reduceCtorEq, false_iff, not_and]
          intro h
          exact absurd hg0 (h 0)
        · intro q
          rw [hrw]
          constructor
          · intro h
            have : q = pos := by
              have := Option.some_injective _ (Except.ok.inj h)
              omega
            exact ⟨0, by omega, hg0, by omega⟩
          · rintro ⟨j, rfl, hg, hmin⟩
            cases j with
            | zero => rfl
            | succ j' => exact absurd hg0 (hmin 0 (by omega))
        · rw [hrw]
          simp only [Except.ok.injEq, reduceCtorEq, false_iff, not_and]
          intro h
          exact absurd hg0 (h 0)
      · have hrw : findAux d (c :: rest) pos b = findAux d rest (pos + 1) b := by
          simp [findAux, hc, hd]
        have hz : ¬ goodDelimB (c :: rest) 0 d b := by
          rw [goodDelimB_other_zero c rest d b hc]
          exact hd
        have hall : (∀ j, ¬ goodDelimB (c :: rest) j d b) ↔
            (∀ j, ¬ goodDelimB rest j d b) := by
          constructor
          · intro h j
            rw [← goodDelimB_other_succ c rest j d b hc]
            exact h (j + 1)
          · intro h j
            cases j with
            | zero => exact hz
            | succ k => rw [goodDelimB_other_succ c rest k d b hc]; exact h k
        have hcnt : ((c :: rest).count '"' + (if b then 1 else 0)) % 2 =
            (rest.count '"' + (if b then 1 else 0)) % 2 := by
          rw [List.count_cons_of_ne (Ne.symm hc)]
        obtain ⟨iherr, ihsome, ihnone⟩ := ih (pos + 1) b
        refine ⟨?_, ?_, ?_⟩
        · rw [hrw, iherr, hall, hcnt]
        · intro q
          rw [hrw, ihsome q]
          constructor
          · rintro ⟨j, rfl, hg, hmin⟩
            refine ⟨j + 1, by omega, (goodDelimB_other_succ c rest j d b hc).mpr hg, ?_⟩
            intro k hk
            cases k with
            | zero => exact hz
            | succ k' =>
              rw [goodDelimB_other_succ c rest k' d b hc]
              exact hmin k' (by omega)
          · rintro ⟨j, rfl, hg, hmin⟩
            cases j with
            | zero => exact absurd hg hz
            | succ j' =>
              refine ⟨j', by omega, (goodDelimB_other_succ c rest j' d b hc).mp hg, ?_⟩
              intro k hk
              have := hmin (k + 1) (by omega)
              rw [goodDelimB_other_succ c rest k d b hc] at this
              exact this
        · rw [hrw, ihnone, hall, hcnt]

/-- Claim C4: `find(s, offset, delimiter)` raises a ParseError iff no
delimiter occurrence outside a quoted span exists in the scanned portion of
`s` and that portion contains an odd number of double quotes; it returns
position `q` iff `q` is the first delimiter occurrence at even quote parity;
and it returns not-found iff no such occurrence exists and the quote count is
even. -/
theorem C4_find_characterization (s : List Char) (offset : Nat) (d : Char) :
    (find s offset d = .error .parse ↔
      (∀ j, ¬ goodDelim (s.drop offset) j d) ∧ (s.drop offset).count '"' % 2 = 1) ∧
    (∀ q, find s offset d = .ok (some q) ↔
      ∃ j, q = offset + j ∧ goodDelim (s.drop offset) j d ∧
        ∀ k < j, ¬ goodDelim (s.drop offset) k d) ∧
    (find s offset d = .ok none ↔
      (∀ j, ¬ goodDelim (s.drop offset) j d) ∧ (s.drop offset).count '"' % 2 = 0) := by
  obtain ⟨herr, hsome, hnone⟩ := findAux_spec d (s.drop offset) offset false
  refine ⟨?_, ?_, ?_⟩
  · rw [find, herr]
    simp [goodDelimB_false]
  · intro q
    rw [find, hsome q]
    simp only [goodDelimB_false]
  · rw [find, hnone]
    simp [goodDelimB_false]

/-! ## Split-loop basics (claims C5 and C9) -/

theorem splitLoop_ok_ne_nil (d : Char) (s : List Char) :
    ∀ (fuel prev : Nat) (ts : List (List Char)),
      splitLoop d s prev fuel = .ok ts → ts ≠ [] := by
  intro fuel
  induction fuel with
  | zero => intro prev ts h; exact absurd h (by simp [splitLoop])
  | succ n ih =>
    intro prev ts h
    rw [splitLoop] at h
    split at h
    · exact absurd h (by simp)
    · dsimp only at h
      split at h
      · split at h
        · exact absurd h (by simp)
        · obtain rfl := Except.ok.inj h
          simp
      · obtain rfl := Except.ok.inj h
        simp

theorem splitString_ok_ne_nil (d : Char) (s : List Char) (ts : List (List Char))
    (h : splitString s d = .ok ts) : ts ≠ [] := by
  rw [splitString] at h
  split at h
  · exact absurd h (by simp)
  · obtain rfl := Except.ok.inj h
    split
    · simp
    · exact splitLoop_ok_ne_nil d s _ 0 _ (by assumption)

theorem mapExcept_ok_length (f : List Char → Except CsvErr Row) :
    ∀ (l : List (List Char)) (ys : List Row),
      mapExcept f l = .ok ys → ys.length = l.length := by
  intro l
  induction l with
  | nil =>
    intro ys h
    obtain rfl := Except.ok.inj h
    rfl
  | cons a as ih =>
    intro ys h
    rw [mapExcept] at h
    split at h
    · exact absurd h (by simp)
    · split at h
      · exact absurd h (by simp)
      · obtain rfl := Except.ok.inj h
        simp only [List.length_cons]
        rw [ih _ (by assumption)]

/-- Decompose a successful `Csv.parse` into a successful split and a
successful per-line parse. -/
theorem csvParse_ok_decomp (sep : Char) (s : List Char) (c : Csv)
    (hc : Csv.parse sep s = .ok c) :
    ∃ lines, splitString s '\n' = .ok lines ∧
      mapExcept (Row.parse sep) lines = .ok c.rows := by
  rw [Csv.parse] at hc
  cases hlines : splitString s '\n' with
  | error e => rw [hlines] at hc; exact absurd hc (by simp)
  | ok lines =>
    rw [hlines] at hc
    dsimp only at hc
    cases hrows : mapExcept (Row.parse sep) lines with
    | error e => rw [hrows] at hc; exact absurd hc (by simp)
    | ok rows =>
      rw [hrows] at hc
      dsimp only at hc
      obtain rfl := Except.ok.inj hc
      exact ⟨lines, rfl, hrows⟩

/-- Claim C9: parsing the empty string yields a document with exactly one
row, which has no cells; in general `splitString` only ever returns a
non-empty token list, so `basic_csv::parse` never yields an empty document. -/
theorem C9_parse_never_empty (sep d : Char) (s : List Char) (ts : List (List Char))
    (c : Csv) (hts : splitString s d = .ok ts) (hc : Csv.parse sep s = .ok c) :
    ts ≠ [] ∧ c.rows ≠ [] ∧ 1 ≤ c.rows.length ∧ Csv.parse sep [] = .ok ⟨[⟨[]⟩]⟩ := by
  obtain ⟨lines, hlines, hrows⟩ := csvParse_ok_decomp sep s c hc
  have h1 := splitString_ok_ne_nil '\n' s lines hlines
  have h2 := mapExcept_ok_length (Row.parse sep) lines c.rows hrows
  have h3 : c.rows ≠ [] := by
    intro hnil
    rw [hnil] at h2
    exact h1 (List.length_eq_zero.mp h2.symm)
  refine ⟨splitString_ok_ne_nil d s ts hts, h3, ?_, rfl⟩
  rcases hr : c.rows with _ | ⟨r, rs⟩
  · exact absurd hr h3
  · simp

/-- Witness for claim C9 at the empty string. -/
theorem C9_parse_never_empty_witness :
    splitString [] '\n' = .ok [[]] ∧ Csv.parse ';' [] = .ok ⟨[⟨[]⟩]⟩ ∧
    ([[]] : List (List Char)) ≠ [] ∧ (⟨[⟨[]⟩]⟩ : Csv).rows ≠ [] ∧
    1 ≤ (⟨[⟨[]⟩]⟩ : Csv).rows.length := by
  refine ⟨by decide, by decide, ?_⟩
  have h := C9_parse_never_empty ';' '\n' [] [[]] ⟨[⟨[]⟩]⟩ (by decide) (by decide)
  exact ⟨h.1, h.2.1, h.2.2.1⟩

/-- Claim C5: for a non-empty string that ends with the delimiter character,
`splitString` appends one extra empty token to the loop's tokens exactly when
the delimiter is not `'\n'`; in particular `parse("a;b;")` yields one row of
three fields with the third empty, and `parse("a;b;\n")` yields exactly one
row. -/
theorem C5_trailing_separator (s : List Char) (d : Char) (ts : List (List Char))
    (hs : s ≠ []) (hlast : s.getLast? = some d) (hok : splitString s d = .ok ts) :
    ((d ≠ '\n' → ∃ ts', splitLoop d s 0 (s.length + 1) = .ok ts' ∧ ts = ts' ++ [[]]) ∧
      (d = '\n' → splitLoop d s 0 (s.length + 1) = .ok ts)) ∧
    (Csv.parse ';' "a;b;".toList = .ok ⟨[⟨[⟨['a']⟩, ⟨['b']⟩, ⟨[]⟩]⟩]⟩ ∧
      (⟨[]⟩ : Cell).isEmpty = true) ∧
    (Csv.parse ';' "a;b;\n".toList = .ok ⟨[⟨[⟨['a']⟩, ⟨['b']⟩, ⟨[]⟩]⟩]⟩ ∧
      (⟨[⟨[⟨['a']⟩, ⟨['b']⟩, ⟨[]⟩]⟩]⟩ : Csv).rows.length = 1) := by
  rw [splitString] at hok
  cases hloop : splitLoop d s 0 (s.length + 1) with
  | error e => rw [hloop] at hok; exact absurd hok (by simp)
  | ok ts0 =>
    rw [hloop] at hok
    dsimp only at hok
    refine ⟨⟨?_, ?_⟩, ⟨by decide, by decide⟩, ⟨by decide, by decide⟩⟩
    · intro hd
      rw [if_pos ⟨hs, hlast, hd⟩] at hok
      obtain rfl := Except.ok.inj hok
      exact ⟨ts0, rfl, rfl⟩
    · intro hd
      rw [if_neg (fun h => h.2.2 hd)] at hok
      obtain rfl := Except.ok.inj hok
      rfl

/-- Witness for claim C5 at the string `"a;"` and delimiter `';'`. -/
theorem C5_trailing_separator_witness :
    ("a;".toList ≠ [] ∧ "a;".toList.getLast? = some ';' ∧
      splitString "a;".toList ';' = .ok [['a'], []]) ∧
    (∃ ts', splitLoop ';' "a;".toList 0 ("a;".toList.length + 1) = .ok ts' ∧
      ([['a'], []] : List (List Char)) = ts' ++ [[]]) :=
  ⟨⟨by decide, by decide, by decide⟩,
    (C5_trailing_separator "a;".toList ';' [['a'], []] (by decide) (by decide)
      (by decide)).1.1 (by decide)⟩

/-! ## Inert fields and quote-aware splitting of rendered text -/

theorem flipB_cons_quote (rest : List Char) (b : Bool) :
    flipB ('"' :: rest) b = flipB rest (!b) := by
  unfold flipB
  rw [List.count_cons_self]
  rcases Nat.mod_two_eq_zero_or_one (rest.count '"') with h | h
  · rw [if_neg (by omega), if_pos h]
  · rw [if_pos (by omega), if_neg (by omega)]
    simp

theorem flipB_cons_other (c : Char) (rest : List Char) (b : Bool) (hc : c ≠ '"') :
    flipB (c :: rest) b = flipB rest b := by
  unfold flipB
  rw [List.count_cons_of_ne (Ne.symm hc)]

theorem flipB_even (f : List Char) (b : Bool) (h : f.count '"' % 2 = 0) :
    flipB f b = b := by
  unfold flipB
  rw [if_pos h]

theorem noEvenDelim_cons_quote (d : Char) (rest : List Char) (b : Bool) :
    noEvenDelim d ('"' :: rest) b = noEvenDelim d rest (!b) := by
  simp [noEvenDelim]

theorem noEvenDelim_cons_other (d c : Char) (rest : List Char) (b : Bool)
    (hc : c ≠ '"') :
    noEvenDelim d (c :: rest) b =
      if c = d ∧ b = false then false else noEvenDelim d rest b := by
  simp [noEvenDelim, hc]

theorem noEvenDelim_of_not_mem (d : Char) (l : List Char) (hd : d ∉ l) :
    ∀ b, noEvenDelim d l b = true := by
  induction l with
  | nil => intro b; rfl
  | cons c rest ih =>
    intro b
    have hcr : d ∉ rest := fun h => hd (List.mem_cons_of_mem c h)
    by_cases hc : c = '"'
    · subst hc
      rw [noEvenDelim_cons_quote]
      exact ih hcr (!b)
    · rw [noEvenDelim_cons_other d c rest b hc]
      have : ¬(c = d ∧ b = false) := by
        rintro ⟨rfl, -⟩
        exact hd (List.mem_cons_self c rest)
      rw [if_neg this]
      exact ih hcr b

theorem noEvenDelim_append (d : Char) (a : List Char) :
    ∀ (t : List Char) (b : Bool),
      noEvenDelim d (a ++ t) b = (noEvenDelim d a b && noEvenDelim d t (flipB a b)) := by
  induction a with
  | nil => intro t b; simp [noEvenDelim, flipB]
  | cons c rest ih =>
    intro t b
    by_cases hc : c = '"'
    · subst hc
      rw [List.cons_append, noEvenDelim_cons_quote, noEvenDelim_cons_quote,
        flipB_cons_quote, ih]
    · rw [List.cons_append, noEvenDelim_cons_other d c _ b hc,
        noEvenDelim_cons_other d c rest b hc, flipB_cons_other c rest b hc]
      by_cases hcd : c = d ∧ b = false
      · rw [if_pos hcd, if_pos hcd]
        simp
      · rw [if_neg hcd, if_neg hcd, ih]

theorem findAux_append (d : Char) (f : List Char) :
    ∀ (rest : List Char) (pos : Nat) (b : Bool),
      noEvenDelim d f b = true →
      findAux d (f ++ rest) pos b = findAux d rest (pos + f.length) (flipB f b) := by
  induction f with
  | nil =>
    intro rest pos b _
    simp [flipB]
  | cons c cs ih =>
    intro rest pos b hf
    by_cases hc : c = '"'
    · subst hc
      rw [noEvenDelim_cons_quote] at hf
      rw [List.cons_append]
      show findAux d ('"' :: (cs ++ rest)) pos b = _
      rw [show findAux d ('"' :: (cs ++ rest)) pos b =
            findAux d (cs ++ rest) (pos + 1) (!b) by simp [findAux]]
      rw [ih rest (pos + 1) (!b) hf, flipB_cons_quote]
      have : pos + 1 + cs.length = pos + ('"' :: cs).length := by
        simp only [List.length_cons]; omega
      rw [this]
    · rw [noEvenDelim_cons_other d c cs b hc] at hf
      have hnd : ¬(c = d ∧ b = false) := by
        intro hcd
        rw [if_pos hcd] at hf
        exact Bool.false_ne_true hf
      rw [if_neg hnd] at hf
      rw [List.cons_append]
      rw [show findAux d (c :: (cs ++ rest)) pos b =
            findAux d (cs ++ rest) (pos + 1) b by simp [findAux, hc, hnd]]
      rw [ih rest (pos + 1) b hf, flipB_cons_other c cs b hc]
      have : pos + 1 + cs.length = pos + (c :: cs).length := by
        simp only [List.length_cons]; omega
      rw [this]

/-- Scanning from an inert prefix, `find` reports the delimiter right after
the prefix. -/
theorem find_after_inert (d : Char) (hd : d ≠ '"') (s f rest : List Char) (prev : Nat)
    (hdrop : s.drop prev = f ++ d :: rest) (hf : Inert d f) :
    find s prev d = .ok (some (prev + f.length)) := by
  rw [find, hdrop, findAux_append d f (d :: rest) prev false hf.2,
    flipB_even f false hf.1]
  simp [findAux, hd]

/-- Scanning an inert suffix, `find` reports not-found. -/
theorem find_inert_tail (d : Char) (s f : List Char) (prev : Nat)
    (hdrop : s.drop prev = f) (hf : Inert d f) :
    find s prev d = .ok none := by
  rw [find, hdrop, ← List.append_nil f,
    findAux_append d f [] prev false hf.2, flipB_even f false hf.1]
  rfl

theorem joinSep_cons_cons (sep : List Char) (f g : List Char) (t : List (List Char)) :
    joinSep sep (f :: g :: t) = f ++ sep ++ joinSep sep (g :: t) := rfl

theorem joinSep_eq_nil_of_cons (e : Char) (g : List Char) (t : List (List Char))
    (h : joinSep [e] (g :: t) = []) : g = [] ∧ t = [] := by
  cases t with
  | nil => exact ⟨h, rfl⟩
  | cons x xs =>
    rw [joinSep_cons_cons] at h
    exact absurd h (by simp)

theorem inert_nil (d : Char) : Inert d [] := ⟨rfl, rfl⟩

/-- An inert non-empty field never ends with the delimiter: the final
character sits at even parity, which inertness forbids. -/
theorem inert_getLast_ne (d : Char) (hd : d ≠ '"') (g : List Char) (hg : Inert d g) :
    g.getLast? ≠ some d := by
  intro hlast
  obtain ⟨g', rfl⟩ : ∃ g', g = g' ++ [d] := by
    cases hge : g with
    | nil => rw [hge] at hlast; exact absurd hlast (by simp)
    | cons x xs =>
      subst hge
      have hxne : (x :: xs) ≠ [] := by simp
      have hgl : (x :: xs).getLast hxne = d := by
        rw [List.getLast?_eq_getLast _ hxne] at hlast
        exact Option.some_injective _ hlast
      refine ⟨(x :: xs).dropLast, ?_⟩
      rw [← hgl]
      exact (List.dropLast_append_getLast hxne).symm
  obtain ⟨hcnt, hscan⟩ := hg
  rw [noEvenDelim_append d g' [d] false] at hscan
  have hcnt' : g'.count '"' % 2 = 0 := by
    rw [List.count_append] at hcnt
    have : List.count '"' [d] = 0 := by
      refine List.count_eq_zero.mpr ?_
      simp only [List.mem_singleton]
      exact fun h => hd h.symm
    omega
  rw [flipB_even g' false hcnt'] at hscan
  have : noEvenDelim d [d] false = false := by
    rw [noEvenDelim_cons_other d d [] false hd, if_pos ⟨rfl, rfl⟩]
  rw [this] at hscan
  simp at hscan

/-- The split loop applied to fields joined by a single-character delimiter
recovers the fields, except that a final empty field is merged into the
trailing delimiter (the trailing-separator rule of `splitString` puts it
back). -/
theorem splitLoop_joinSep (d : Char) (hd : d ≠ '"') :
    ∀ (fields : List (List Char)) (s : List Char) (prev fuel : Nat),
      s.drop prev = joinSep [d] fields →
      (∀ f ∈ fields, Inert d f) →
      fields ≠ [] →
      prev ≤ s.length →
      s.length + 1 ≤ fuel + prev →
      splitLoop d s prev fuel =
        .ok (if 2 ≤ fields.length ∧ fields.getLast? = some [] then
              fields.dropLast
            else fields) := by
  intro fields
  induction fields with
  | nil => intro s prev fuel _ _ hne _ _; exact absurd rfl hne
  | cons f fields' ih =>
    intro s prev fuel hdrop hinert hne hprev hfuel
    have hdroplen : (s.drop prev).length = s.length - prev := List.length_drop prev s
    cases fields' with
    | nil =>
      -- a single field: find reports not-found, the loop stops
      have hfuel1 : ∃ n, fuel = n + 1 := ⟨fuel - 1, by omega⟩
      obtain ⟨n, rfl⟩ := hfuel1
      have hJ : joinSep [d] [f] = f := rfl
      rw [hJ] at hdrop
      have hfind : find s prev d = .ok none :=
        find_inert_tail d s f prev hdrop (hinert f (by simp))
      rw [splitLoop, hfind]
      dsimp only
      rw [if_neg (by omega : ¬(s.length < s.length ∧ s.length + 1 < s.length))]
      have htok : (s.drop prev).take (s.length - prev) = f := by
        rw [← hdroplen, List.take_length, hdrop]
      rw [htok]
      simp
    | cons g t =>
      have hfuel1 : ∃ n, fuel = n + 1 := ⟨fuel - 1, by omega⟩
      obtain ⟨n, rfl⟩ := hfuel1
      rw [joinSep_cons_cons] at hdrop
      have hdrop' : s.drop prev = f ++ d :: joinSep [d] (g :: t) := by
        rw [hdrop]; simp
      have hfind : find s prev d = .ok (some (prev + f.length)) :=
        find_after_inert d hd s f (joinSep [d] (g :: t)) prev hdrop'
          (hinert f (by simp))
      have hslen : s.length = prev + f.length + 1 + (joinSep [d] (g :: t)).length := by
        have h1 := congrArg List.length hdrop'
        rw [hdroplen] at h1
        simp at h1
        omega
      rw [splitLoop, hfind]
      dsimp only
      have htok : (s.drop prev).take (prev + f.length - prev) = f := by
        rw [hdrop', show prev + f.length - prev = f.length by omega]
        exact List.take_left f _
      rw [htok]
      by_cases hrest : joinSep [d] (g :: t) = []
      · -- the remaining fields render to nothing: g = [] and t = []
        obtain ⟨rfl, rfl⟩ := joinSep_eq_nil_of_cons d g t hrest
        have hlen0 : (joinSep [d] ([] :: ([] : List (List Char)))).length = 0 := rfl
        rw [if_neg (by omega : ¬(prev + f.length < s.length ∧
          prev + f.length + 1 < s.length))]
        rw [if_pos (show 2 ≤ (f :: [] :: ([] : List (List Char))).length ∧
          (f :: [] :: ([] : List (List Char))).getLast? = some [] by simp)]
        rfl
      · have hlpos : 0 < (joinSep [d] (g :: t)).length :=
          List.length_pos.mpr hrest
        rw [if_pos (by omega : prev + f.length < s.length ∧
          prev + f.length + 1 < s.length)]
        have hdrop2 : s.drop (prev + f.length + 1) = joinSep [d] (g :: t) := by
          have h1 : s.drop (prev + f.length + 1) =
              (s.drop prev).drop (f.length + 1) := by
            rw [List.drop_drop]
            congr 1
          rw [h1, hdrop']
          rw [show f ++ d :: joinSep [d] (g :: t) =
                (f ++ [d]) ++ joinSep [d] (g :: t) by simp]
          rw [show f.length + 1 = (f ++ [d]).length by simp]
          exact List.drop_left (f ++ [d]) _
        have hih := ih s (prev + f.length + 1) n hdrop2
          (fun x hx => hinert x (List.mem_cons_of_mem f hx))
          (by simp) (by omega) (by omega)
        rw [hih]
        dsimp only
        by_cases hcond : 2 ≤ (g :: t).length ∧ (g :: t).getLast? = some []
        · rw [if_pos hcond,
            if_pos (⟨by simp, by rw [List.getLast?_cons_cons]; exact hcond.2⟩ :
              2 ≤ (f :: g :: t).length ∧ (f :: g :: t).getLast? = some [])]
          rfl
        · rw [if_neg hcond]
          cases t with
          | nil =>
            have hgne : g ≠ [] := by
              intro hg
              subst hg
              exact hrest rfl
            rw [if_neg (by
              rintro ⟨-, hl⟩
              rw [List.getLast?_cons_cons, List.getLast?_singleton] at hl
              exact hgne (Option.some_injective _ hl))]
          | cons x xs =>
            rw [if_neg (by
              rintro ⟨-, hl⟩
              rw [List.getLast?_cons_cons] at hl
              exact hcond ⟨by simp, hl⟩)]

theorem joinSep_ne_nil_two (e : Char) (a b : List Char) (t : List (List Char)) :
    joinSep [e] (a :: b :: t) ≠ [] := by
  rw [joinSep_cons_cons]
  simp

theorem joinSep_getLast_of_ne (e : Char) :
    ∀ (fields : List (List Char)) (g : List Char),
      fields.getLast? = some g → g ≠ [] →
      (joinSep [e] fields).getLast? = g.getLast? := by
  intro fields
  induction fields with
  | nil => intro g hg _; exact absurd hg (by simp)
  | cons f t ih =>
    intro g hg hgne
    cases t with
    | nil =>
      rw [List.getLast?_singleton] at hg
      obtain rfl := Option.some_injective _ hg
      rfl
    | cons x xs =>
      rw [List.getLast?_cons_cons] at hg
      have hlast := ih g hg hgne
      have hjnn : joinSep [e] (x :: xs) ≠ [] := by
        intro h
        rw [h] at hlast
        have : g.getLast? = none := hlast.symm
        cases g with
        | nil => exact hgne rfl
        | cons y ys => rw [List.getLast?_eq_getLast _ (by simp)] at this; simp at this
      rw [joinSep_cons_cons, List.getLast?_append_of_ne_nil _ hjnn]
      exact hlast

theorem joinSep_getLast_of_last_nil (e : Char) :
    ∀ (fields : List (List Char)),
      2 ≤ fields.length → fields.getLast? = some [] →
      (joinSep [e] fields).getLast? = some e := by
  intro fields
  induction fields with
  | nil => intro h _; simp at h
  | cons f t ih =>
    intro hlen hlast
    cases t with
    | nil => simp at hlen
    | cons x xs =>
      rw [List.getLast?_cons_cons] at hlast
      cases xs with
      | nil =>
        obtain rfl : x = [] := by
          rw [List.getLast?_singleton] at hlast
          exact Option.some_injective _ hlast
        show (f ++ [e] ++ joinSep [e] [([] : List Char)]).getLast? = some e
        rw [show joinSep [e] [([] : List Char)] = [] from rfl, List.append_nil]
        exact List.getLast?_concat f
      | cons y ys =>
        have hih := ih (by simp) hlast
        have hjnn : joinSep [e] (x :: y :: ys) ≠ [] := joinSep_ne_nil_two e x y ys
        rw [joinSep_cons_cons, List.getLast?_append_of_ne_nil _ hjnn]
        exact hih

/-- Splitting fields joined with a single-character delimiter recovers the
fields exactly, when each field is inert for the delimiter and a final empty
field only occurs where the trailing-separator rule restores it. -/
theorem splitString_joinSep (d : Char) (hd : d ≠ '"') (fields : List (List Char))
    (hinert : ∀ f ∈ fields, Inert d f) (hne : fields ≠ [])
    (hok : 2 ≤ fields.length → fields.getLast? = some [] → d ≠ '\n') :
    splitString (joinSep [d] fields) d = .ok fields := by
  have hloop := splitLoop_joinSep d hd fields (joinSep [d] fields) 0
    ((joinSep [d] fields).length + 1) (by simp) hinert hne (by omega) (by omega)
  rw [splitString, hloop]
  dsimp only
  by_cases hcond : 2 ≤ fields.length ∧ fields.getLast? = some []
  · rw [if_pos hcond]
    have hdn : d ≠ '\n' := hok hcond.1 hcond.2
    have hlast : (joinSep [d] fields).getLast? = some d :=
      joinSep_getLast_of_last_nil d fields hcond.1 hcond.2
    have hsnn : joinSep [d] fields ≠ [] := by
      intro h
      rw [h] at hlast
      simp at hlast
    rw [if_pos ⟨hsnn, hlast, hdn⟩]
    congr 1
    have hsplit := List.dropLast_append_getLast (l := fields) hne
    have hg : fields.getLast hne = [] := by
      rw [List.getLast?_eq_getLast _ hne] at hcond
      exact Option.some_injective _ hcond.2
    rw [hg] at hsplit
    exact hsplit
  · rw [if_neg hcond]
    have hg := List.getLast?_eq_getLast fields hne
    by_cases hgnil : fields.getLast hne = []
    · have hlen1 : fields.length = 1 := by
        by_contra hlen
        have h2 : 2 ≤ fields.length := by
          have := List.length_pos.mpr hne
          omega
        exact hcond ⟨h2, by rw [hg, hgnil]⟩
      obtain ⟨x, rfl⟩ : ∃ x, fields = [x] := by
        cases fields with
        | nil => simp at hlen1
        | cons a t =>
          cases t with
          | nil => exact ⟨a, rfl⟩
          | cons b t2 => simp at hlen1
      obtain rfl : x = [] := hgnil
      rw [if_neg (by rintro ⟨h1, -, -⟩; exact h1 rfl)]
    · have hlast2 : (joinSep [d] fields).getLast? = (fields.getLast hne).getLast? :=
        joinSep_getLast_of_ne d fields (fields.getLast hne) hg hgnil
      have hne2 : (fields.getLast hne).getLast? ≠ some d :=
        inert_getLast_ne d hd (fields.getLast hne)
          (hinert (fields.getLast hne) (List.getLast_mem hne))
      rw [if_neg (by rintro ⟨-, h2, -⟩; rw [hlast2] at h2; exact hne2 h2)]

/-! ## Inertness of canonically escaped fields -/

theorem count_flatMap_escape (s : List Char) :
    (s.flatMap escape_character).count '"' = 2 * s.count '"' := by
  induction s with
  | nil => rfl
  | cons c rest ih =>
    rw [List.flatMap_cons, List.count_append, ih]
    by_cases hc : c = '"'
    · subst hc
      rw [show escape_character '"' = ['"', '"'] from rfl, List.count_cons_self,
        List.count_cons_self, List.count_nil, List.count_cons_self]
      omega
    · have h0 : List.count '"' [c] = 0 := by
        refine List.count_eq_zero.mpr ?_
        simp only [List.mem_singleton]
        exact fun h => hc h.symm
      rw [show escape_character c = [c] by simp [escape_character, hc], h0,
        List.count_cons_of_ne (Ne.symm hc)]
      omega

theorem noEvenDelim_flatMap (dl : Char) (hdl : dl ≠ '"') (s : List Char) :
    noEvenDelim dl (s.flatMap escape_character) true = true := by
  induction s with
  | nil => rfl
  | cons c rest ih =>
    rw [List.flatMap_cons]
    by_cases hc : c = '"'
    · subst hc
      rw [show escape_character '"' = ['"', '"'] from rfl]
      rw [List.cons_append, List.cons_append, noEvenDelim_cons_quote,
        noEvenDelim_cons_quote]
      exact ih
    · rw [show escape_character c = [c] by simp [escape_character, hc],
        List.cons_append, noEvenDelim_cons_other dl c _ true hc,
        if_neg (by rintro ⟨-, h⟩; simp at h)]
      exact ih

/-- A canonically escaped field is inert for the separator and for `'\n'`:
its quotes are balanced and neither delimiter occurs at even parity. -/
theorem inert_escape_string (sep dl : Char) (hdl : dl ≠ '"')
    (hin : dl = '\n' ∨ dl = sep) (s : List Char) :
    Inert dl (escape_string sep s) := by
  rw [escape_string]
  by_cases hsp : '\n' ∈ s ∨ '"' ∈ s ∨ sep ∈ s
  · rw [if_pos hsp]
    constructor
    · rw [show '"' :: s.flatMap escape_character ++ ['"'] =
            '"' :: (s.flatMap escape_character ++ ['"']) from rfl,
        List.count_cons_self, List.count_append, count_flatMap_escape]
      simp [List.count_singleton]
      omega
    · rw [show '"' :: s.flatMap escape_character ++ ['"'] =
            '"' :: (s.flatMap escape_character ++ ['"']) from rfl,
        noEvenDelim_cons_quote]
      simp only [Bool.not_false]
      rw [noEvenDelim_append dl (s.flatMap escape_character) ['"'] true,
        noEvenDelim_flatMap dl hdl s]
      rw [show ∀ b, noEvenDelim dl ['"'] b = true from fun b => by
        rw [noEvenDelim_cons_quote]; rfl]
      rfl
  · rw [if_neg hsp]
    have hq : '"' ∉ s := fun h => hsp (Or.inr (Or.inl h))
    have hdm : dl ∉ s := by
      rcases hin with rfl | rfl
      · exact fun h => hsp (Or.inl h)
      · exact fun h => hsp (Or.inr (Or.inr h))
    exact ⟨by rw [List.count_eq_zero.mpr hq], noEvenDelim_of_not_mem dl s hdm false⟩

/-- Joining inert fields with an inert single-character separator yields an
inert string for any other delimiter. -/
theorem inert_joinSep (dl e : Char) (he : e ≠ dl) (he2 : e ≠ '"') :
    ∀ (fields : List (List Char)), (∀ f ∈ fields, Inert dl f) →
      Inert dl (joinSep [e] fields) := by
  intro fields
  induction fields with
  | nil => intro _; exact inert_nil dl
  | cons f t ih =>
    intro h
    cases t with
    | nil => exact h f (by simp)
    | cons g t2 =>
      have hf := h f (by simp)
      have hrest := ih fun x hx => h x (List.mem_cons_of_mem f hx)
      rw [joinSep_cons_cons]
      have hassoc : f ++ [e] ++ joinSep [e] (g :: t2) =
          f ++ (e :: joinSep [e] (g :: t2)) := by simp
      rw [hassoc]
      constructor
      · rw [List.count_append, List.count_cons_of_ne (Ne.symm he2)]
        have h1 := hf.1
        have h2 := hrest.1
        omega
      · rw [noEvenDelim_append dl f _ false, hf.2, flipB_even f false hf.1,
          noEvenDelim_cons_other dl e _ false he2,
          if_neg (by rintro ⟨h1, -⟩; exact he h1), hrest.2]
        rfl

/-! ## Characterizing `min_size` -/

theorem min_size_concat (cells : List Cell) (c : Cell) :
    Row.min_size ⟨cells ++ [c]⟩ =
      if c.isEmpty then Row.min_size ⟨cells⟩ else cells.length + 1 := by
  unfold Row.min_size
  rw [List.reverse_append]
  simp only [List.reverse_cons, List.reverse_nil, List.nil_append,
    List.singleton_append]
  rw [List.dropWhile_cons]
  by_cases hc : c.isEmpty = true
  · rw [if_pos hc, if_pos hc]
  · rw [if_neg hc, if_neg hc]
    simp

theorem min_size_le_length (r : Row) : r.min_size ≤ r.cells.length := by
  unfold Row.min_size
  have h : (r.cells.reverse.dropWhile Cell.isEmpty).length ≤ r.cells.reverse.length := by
    generalize r.cells.reverse = l
    induction l with
    | nil => simp
    | cons a t ih =>
      rw [List.dropWhile_cons]
      split
      · exact le_trans ih (by simp)
      · simp
  simpa using h

theorem min_size_getD_empty (cells : List Cell) :
    ∀ i, Row.min_size ⟨cells⟩ ≤ i → ((cells.getD i cellNull)).isEmpty = true := by
  induction cells using List.reverseRecOn with
  | nil =>
    intro i _
    exact cellNull_isEmpty
  | append_singleton cells c ih =>
    intro i hi
    rw [min_size_concat] at hi
    by_cases hc : c.isEmpty = true
    · rw [if_pos hc] at hi
      by_cases hlen : i < cells.length
      · rw [List.getD_append _ _ _ _ hlen]
        exact ih i hi
      · by_cases heq : i = cells.length
        · subst heq
          rw [List.getD_append_right _ _ _ _ (le_refl _)]
          simpa using hc
        · rw [List.getD_eq_default _ _ (by simp; omega)]
          exact cellNull_isEmpty
    · rw [if_neg hc] at hi
      rw [List.getD_eq_default _ _ (by simp; omega)]
      exact cellNull_isEmpty

theorem min_size_getD_last (cells : List Cell) (n : Nat)
    (h : Row.min_size ⟨cells⟩ = n + 1) :
    (cells.getD n cellNull).isEmpty = false := by
  induction cells using List.reverseRecOn generalizing n with
  | nil =>
    exfalso
    unfold Row.min_size at h
    simp at h
  | append_singleton cells c ih =>
    rw [min_size_concat] at h
    by_cases hc : c.isEmpty = true
    · rw [if_pos hc] at h
      have hle : Row.min_size ⟨cells⟩ ≤ cells.length := min_size_le_length ⟨cells⟩
      have hn : n < cells.length := by omega
      rw [List.getD_append _ _ _ _ hn]
      exact ih n h
    · rw [if_neg hc] at h
      have hn : n = cells.length := by omega
      subst hn
      rw [List.getD_append_right _ _ _ _ (le_refl _)]
      simp only [Nat.sub_self]
      have : ([c].getD 0 cellNull) = c := rfl
      rw [this]
      exact Bool.eq_false_iff.mpr hc

theorem min_size_eta (r : Row) : Row.min_size ⟨r.cells⟩ = r.min_size := rfl

theorem min_size_unique (r : Row) (n : Nat)
    (h1 : ∀ i, n ≤ i → (r.cells.getD i cellNull).isEmpty = true)
    (h2 : n = 0 ∨ (r.cells.getD (n - 1) cellNull).isEmpty = false) :
    r.min_size = n := by
  rcases Nat.lt_trichotomy r.min_size n with hlt | heq | hgt
  · exfalso
    rcases h2 with rfl | h2
    · omega
    · have hle : r.min_size ≤ n - 1 := by omega
      have he := min_size_getD_empty r.cells (n - 1) hle
      rw [he] at h2
      exact Bool.noConfusion h2
  · exact heq
  · exfalso
    have hpos : 1 ≤ r.min_size := by omega
    have hlast := min_size_getD_last r.cells (r.min_size - 1)
      (by rw [min_size_eta]; omega)
    have hemp := h1 (r.min_size - 1) (by omega)
    rw [hemp] at hlast
    exact Bool.noConfusion hlast

theorem getD_map_range (f : Nat → Cell) (m i : Nat) :
    (((List.range m).map f).getD i cellNull) = if i < m then f i else cellNull := by
  by_cases hi : i < m
  · rw [if_pos hi, List.getD_eq_getElem _ _ (by simpa using hi)]
    simp
  · rw [if_neg hi, List.getD_eq_default _ _ (by simpa using hi)]

/-- Padding or truncating a row to `m ≥ min_size` fields preserves
`min_size`. -/
theorem min_size_padded (r : Row) (m : Nat) (h : r.min_size ≤ m) :
    Row.min_size ⟨(List.range m).map fun i => r.cells.getD i cellNull⟩ =
      r.min_size := by
  apply min_size_unique
  · intro i hi
    show (((List.range m).map fun i => r.cells.getD i cellNull).getD i cellNull).isEmpty = true
    rw [getD_map_range]
    split
    · exact min_size_getD_empty r.cells i hi
    · exact cellNull_isEmpty
  · rcases Nat.eq_zero_or_pos r.min_size with h0 | hpos
    · left; exact h0
    · right
      show (((List.range m).map fun i => r.cells.getD i cellNull).getD
        (r.min_size - 1) cellNull).isEmpty = false
      rw [getD_map_range, if_pos (by omega)]
      exact min_size_getD_last r.cells (r.min_size - 1) (by rw [min_size_eta]; omega)

theorem cellEq_refl (c : Cell) : cellEq c c = true := by
  simp [cellEq]

theorem rowEq_true_iff (a b : Row) :
    rowEq a b = true ↔
      (a.min_size = b.min_size ∧ ∀ i ∈ List.range a.min_size,
        cellEq (a.cells.getD i cellNull) (b.cells.getD i cellNull) = true) := by
  unfold rowEq
  simp

theorem csvEq_true_iff (a b : Csv) :
    csvEq a b = true ↔
      (a.rows.length = b.rows.length ∧ ∀ i ∈ List.range a.rows.length,
        rowEq (a.rows.getD i rowNull) (b.rows.getD i rowNull) = true) := by
  unfold csvEq
  simp

/-! ## Document round-trip (claim C1) -/

/-- The cells a row renders at width `m` (existing cells, empty padding). -/
def paddedCells (r : Row) (m : Nat) : List Cell :=
  (List.range m).map fun i => r.cells.getD i cellNull

/-- The raw field texts a row renders at width `m`. -/
def fieldsOf (r : Row) (m : Nat) : List (List Char) :=
  (List.range m).map fun i => (r.cells.getD i cellNull).rawValue

theorem toStringPadded_eq (sep : Char) (r : Row) (len : Nat)
    (h : r.min_size ≤ len) :
    r.toStringPadded sep len = joinSep [sep] (fieldsOf r len) := by
  unfold Row.toStringPadded fieldsOf
  dsimp only
  have hmx : r.min_size.max len = len := Nat.max_eq_right h
  rw [hmx]

theorem fieldsOf_map_parse (r : Row) (m : Nat) :
    (fieldsOf r m).map Cell.parse = paddedCells r m := by
  unfold fieldsOf paddedCells
  rw [List.map_map]
  rfl

theorem fieldsOf_length (r : Row) (m : Nat) : (fieldsOf r m).length = m := by
  unfold fieldsOf
  simp

theorem isEmpty_of_value_eq_nil (c : Cell) (h : c.value = []) :
    c.isEmpty = true := by
  have hc : c = cellNull := by
    cases c
    simpa [cellNull] using h
  rw [hc]
  exact cellNull_isEmpty

theorem inert_fieldsOf (sep dl : Char) (hdl : dl ≠ '"') (hin : dl = '\n' ∨ dl = sep)
    (r : Row) (m : Nat) (hcanon : ∀ c ∈ r.cells, CellCanonical sep c) :
    ∀ f ∈ fieldsOf r m, Inert dl f := by
  intro f hf
  unfold fieldsOf at hf
  obtain ⟨i, -, rfl⟩ := List.mem_map.mp hf
  by_cases hi : i < r.cells.length
  · have hmem : r.cells.getD i cellNull ∈ r.cells := by
      rw [List.getD_eq_getElem _ _ hi]
      exact List.getElem_mem _
    obtain ⟨s', hs'⟩ := hcanon _ hmem
    rw [show (r.cells.getD i cellNull).rawValue =
          (r.cells.getD i cellNull).value from rfl, hs']
    exact inert_escape_string sep dl hdl hin s'
  · rw [List.getD_eq_default _ _ (by omega)]
    exact inert_nil dl

theorem joinSep_eq_nil_cases (e : Char) (fields : List (List Char))
    (h : joinSep [e] fields = []) : fields = [] ∨ fields = [[]] := by
  cases fields with
  | nil => left; rfl
  | cons f t =>
    cases t with
    | nil =>
      right
      rw [show joinSep [e] [f] = f from rfl] at h
      rw [h]
    | cons g t2 => exact absurd h (joinSep_ne_nil_two e f g t2)

/-- Parsing a row rendered at a width at least its `min_size` succeeds and
gives a row equal to the original under row equality. -/
theorem row_parse_rendered (sep : Char) (hs1 : sep ≠ '\n') (hs2 : sep ≠ '"')
    (r : Row) (m : Nat) (hm : 1 ≤ m) (hmin : r.min_size ≤ m)
    (hcanon : ∀ c ∈ r.cells, CellCanonical sep c) :
    ∃ pr, Row.parse sep (r.toStringPadded sep m) = .ok pr ∧ rowEq pr r = true := by
  rw [toStringPadded_eq sep r m hmin]
  by_cases hline : joinSep [sep] (fieldsOf r m) = []
  · refine ⟨⟨[]⟩, ?_, ?_⟩
    · rw [hline]
      rfl
    · have hmin0 : r.min_size = 0 := by
        rcases joinSep_eq_nil_cases sep _ hline with h | h
        · exfalso
          have := congrArg List.length h
          rw [fieldsOf_length] at this
          simp at this
          omega
        · have hm1 : m = 1 := by
            have := congrArg List.length h
            rw [fieldsOf_length] at this
            simpa using this
          subst hm1
          have hfield : (r.cells.getD 0 cellNull).rawValue = [] := by
            have : fieldsOf r 1 = [(r.cells.getD 0 cellNull).rawValue] := by
              unfold fieldsOf
              rfl
            rw [this] at h
            injection h with h1 h2
          by_contra h0
          have hpos : 1 ≤ r.min_size := by omega
          have hlastc := min_size_getD_last r.cells 0 (by rw [min_size_eta]; omega)
          have := isEmpty_of_value_eq_nil (r.cells.getD 0 cellNull) hfield
          rw [this] at hlastc
          exact Bool.noConfusion hlastc
      rw [rowEq_true_iff]
      refine ⟨?_, ?_⟩
      · rw [show Row.min_size ⟨[]⟩ = 0 from rfl, hmin0]
      · intro i hi
        rw [show Row.min_size ⟨[]⟩ = 0 from rfl] at hi
        simp at hi
  · have hsplit : splitString (joinSep [sep] (fieldsOf r m)) sep = .ok (fieldsOf r m) :=
      splitString_joinSep sep hs2 (fieldsOf r m)
        (inert_fieldsOf sep sep hs2 (Or.inr rfl) r m hcanon)
        (by
          intro h
          have := congrArg List.length h
          rw [fieldsOf_length] at this
          simp at this
          omega)
        (fun _ _ => hs1)
    refine ⟨⟨(fieldsOf r m).map Cell.parse⟩, ?_, ?_⟩
    · rw [Row.parse, if_neg hline, hsplit]
    · rw [fieldsOf_map_parse]
      rw [rowEq_true_iff]
      have hpad : Row.min_size ⟨paddedCells r m⟩ = r.min_size := min_size_padded r m hmin
      refine ⟨hpad, ?_⟩
      intro i hi
      rw [List.mem_range, hpad] at hi
      show cellEq ((paddedCells r m).getD i cellNull) (r.cells.getD i cellNull) = true
      unfold paddedCells
      rw [getD_map_range, if_pos (by omega)]
      exact cellEq_refl _

theorem mapExcept_rows (sep : Char) (lineOf : Row → List Char) :
    ∀ (rows : List Row),
      (∀ r ∈ rows, ∃ pr, Row.parse sep (lineOf r) = .ok pr ∧ rowEq pr r = true) →
      ∃ prs, mapExcept (Row.parse sep) (rows.map lineOf) = .ok prs ∧
        prs.length = rows.length ∧
        ∀ i < rows.length, rowEq (prs.getD i rowNull) (rows.getD i rowNull) = true := by
  intro rows
  induction rows with
  | nil =>
    intro _
    exact ⟨[], rfl, rfl, fun i hi => absurd hi (by simp)⟩
  | cons r rest ih =>
    intro h
    obtain ⟨pr, hpr, heq⟩ := h r (by simp)
    obtain ⟨prs, hprs, hlen, hall⟩ := ih fun x hx => h x (List.mem_cons_of_mem r hx)
    refine ⟨pr :: prs, ?_, by simp [hlen], ?_⟩
    · rw [List.map_cons, mapExcept, hpr, hprs]
    · intro i hi
      cases i with
      | zero => simpa using heq
      | succ j =>
        have hj := hall j (by simp at hi; omega)
        simpa using hj

theorem foldl_max_init_le : ∀ (rows : List Row) (a : Nat),
    a ≤ rows.foldl (fun m x => Nat.max m x.min_size) a := by
  intro rows
  induction rows with
  | nil => intro a; exact le_refl a
  | cons x t ih =>
    intro a
    exact le_trans (Nat.le_max_left a x.min_size) (ih _)

theorem mem_min_size_le_foldl : ∀ (rows : List Row) (a : Nat) (r : Row), r ∈ rows →
    r.min_size ≤ rows.foldl (fun m x => Nat.max m x.min_size) a := by
  intro rows
  induction rows with
  | nil => intro a r hr; simp at hr
  | cons x t ih =>
    intro a r hr
    rcases List.mem_cons.mp hr with rfl | hr
    · exact le_trans (Nat.le_max_right a r.min_size) (foldl_max_init_le t _)
    · exact ih _ r hr

theorem min_size_le_max_row_length (d : Csv) (r : Row) (hr : r ∈ d.rows) :
    r.min_size ≤ d.max_row_length :=
  mem_min_size_le_foldl d.rows 0 r hr

/-- Claim C1 (amended): for a document whose cells hold canonically escaped
values, which has at least one row, and whose final row has `min_size ≥ 1`,
parsing the rendered text succeeds and yields a document equal to the
original under document equality. -/
theorem C1_roundtrip (sep : Char) (d : Csv) (hs1 : sep ≠ '\n') (hs2 : sep ≠ '"')
    (hcanon : CsvCanonical sep d) (hne : d.rows ≠ [])
    (hlast : ∀ r, d.rows.getLast? = some r → 1 ≤ r.min_size) :
    ∃ d', Csv.parse sep (Csv.toString sep d) = .ok d' ∧ csvEq d' d = true := by
  have hlastr := List.getLast?_eq_getLast d.rows hne
  have hmin1 : 1 ≤ (d.rows.getLast hne).min_size := hlast _ hlastr
  have hminle : (d.rows.getLast hne).min_size ≤ d.max_row_length :=
    min_size_le_max_row_length d _ (List.getLast_mem hne)
  have hm1 : 1 ≤ d.max_row_length := le_trans hmin1 hminle
  have htostr : Csv.toString sep d =
      joinSep ['\n'] (d.rows.map fun r => r.toStringPadded sep d.max_row_length) := rfl
  have hlineinert : ∀ l ∈ d.rows.map (fun r => r.toStringPadded sep d.max_row_length),
      Inert '\n' l := by
    intro l hl
    obtain ⟨r, hr, rfl⟩ := List.mem_map.mp hl
    rw [toStringPadded_eq sep r _ (min_size_le_max_row_length d r hr)]
    exact inert_joinSep '\n' sep hs1 hs2 _
      (inert_fieldsOf sep '\n' (by decide) (Or.inl rfl) r _ (hcanon r hr))
  have hlastline : (d.rows.map fun r => r.toStringPadded sep d.max_row_length).getLast? =
      some ((d.rows.getLast hne).toStringPadded sep d.max_row_length) := by
    rw [List.getLast?_map, hlastr]
    rfl
  have hlastne : (d.rows.getLast hne).toStringPadded sep d.max_row_length ≠ [] := by
    rw [toStringPadded_eq sep _ _ hminle]
    intro hnil
    rcases joinSep_eq_nil_cases sep _ hnil with h | h
    · have := congrArg List.length h
      rw [fieldsOf_length] at this
      simp at this
      omega
    · have hmm : d.max_row_length = 1 := by
        have := congrArg List.length h
        rw [fieldsOf_length] at this
        simpa using this
      rw [hmm] at h
      have hfield : ((d.rows.getLast hne).cells.getD 0 cellNull).rawValue = [] := by
        have h2 : fieldsOf (d.rows.getLast hne) 1 =
            [((d.rows.getLast hne).cells.getD 0 cellNull).rawValue] := by
          unfold fieldsOf
          rfl
        rw [h2] at h
        injection h with h1 h2
      have hlastc := min_size_getD_last (d.rows.getLast hne).cells 0
        (by rw [min_size_eta]; omega)
      have := isEmpty_of_value_eq_nil _ hfield
      rw [this] at hlastc
      exact Bool.noConfusion hlastc
  have hsplit := splitString_joinSep '\n' (by decide)
    (d.rows.map fun r => r.toStringPadded sep d.max_row_length) hlineinert
    (by
      intro h
      rw [List.map_eq_nil_iff] at h
      exact hne h)
    (by
      intro _ hnil
      rw [hlastline] at hnil
      exact absurd (Option.some_injective _ hnil) hlastne)
  have hperrow : ∀ r ∈ d.rows, ∃ pr,
      Row.parse sep (r.toStringPadded sep d.max_row_length) = .ok pr ∧
        rowEq pr r = true :=
    fun r hr => row_parse_rendered sep hs1 hs2 r _ hm1
      (min_size_le_max_row_length d r hr) (hcanon r hr)
  obtain ⟨prs, hprs, hlen, hall⟩ := mapExcept_rows sep _ d.rows hperrow
  refine ⟨⟨prs⟩, ?_, ?_⟩
  · rw [Csv.parse, htostr, hsplit]
    dsimp only
    rw [hprs]
  · rw [csvEq_true_iff]
    refine ⟨hlen, ?_⟩
    intro i hi
    rw [List.mem_range] at hi
    have hi2 : i < prs.length := hi
    exact hall i (by omega)

/-- Witness for claim C1 at the canonical one-row document `[["a"]]`. -/
theorem C1_roundtrip_witness :
    (CsvCanonical ';' ⟨[⟨[⟨['a']⟩]⟩]⟩ ∧ (⟨[⟨[⟨['a']⟩]⟩]⟩ : Csv).rows ≠ []) ∧
    ∃ d', Csv.parse ';' (Csv.toString ';' ⟨[⟨[⟨['a']⟩]⟩]⟩) = .ok d' ∧
      csvEq d' ⟨[⟨[⟨['a']⟩]⟩]⟩ = true := by
  have hcanon : CsvCanonical ';' ⟨[⟨[⟨['a']⟩]⟩]⟩ := by
    intro r hr c hc
    simp only [List.mem_singleton] at hr
    subst hr
    simp only [List.mem_singleton] at hc
    subst hc
    exact ⟨['a'], by decide⟩
  refine ⟨⟨hcanon, by decide⟩, ?_⟩
  exact C1_roundtrip ';' ⟨[⟨[⟨['a']⟩]⟩]⟩ (by decide) (by decide) hcanon
    (by decide) (by intro r hr; rw [show (⟨[⟨[⟨['a']⟩]⟩]⟩ : Csv).rows.getLast? =
      some ⟨[⟨['a']⟩]⟩ from rfl] at hr; obtain rfl := Option.some_injective _ hr; decide)

/-- Counterexample to claim C1 as universally stated: the canonical document
`[["a"], []]` (one data row followed by an empty row) serializes to `"a\n"`,
which parses back to the single-row document `[["a"]]`, not equal to the
original: round-trip fails when the final row is empty. -/
theorem C1_counterexample :
    Csv.parse ';' (Csv.toString ';' ⟨[⟨[⟨['a']⟩]⟩, ⟨[]⟩]⟩) = .ok ⟨[⟨[⟨['a']⟩]⟩]⟩ ∧
    csvEq ⟨[⟨[⟨['a']⟩]⟩]⟩ ⟨[⟨[⟨['a']⟩]⟩, ⟨[]⟩]⟩ = false ∧
    CsvCanonical ';' ⟨[⟨[⟨['a']⟩]⟩, ⟨[]⟩]⟩ := by
  refine ⟨by decide, by decide, ?_⟩
  intro r hr c hc
  simp only [List.mem_cons, List.mem_singleton] at hr
  rcases hr with rfl | rfl | h
  · simp only [List.mem_singleton] at hc
    subst hc
    exact ⟨['a'], by decide⟩
  · simp at hc
  · simp at h

/-! ## Separator counts in rendered lines (claim C8) -/

theorem countEvenSeps_cons_quote (d : Char) (rest : List Char) (b : Bool) :
    countEvenSeps d ('"' :: rest) b = countEvenSeps d rest (!b) := by
  simp [countEvenSeps]

theorem countEvenSeps_cons_other (d c : Char) (rest : List Char) (b : Bool)
    (hc : c ≠ '"') :
    countEvenSeps d (c :: rest) b =
      (if c = d ∧ b = false then 1 else 0) + countEvenSeps d rest b := by
  simp [countEvenSeps, hc]

theorem countEvenSeps_append (d : Char) (a : List Char) :
    ∀ (t : List Char) (b : Bool),
      countEvenSeps d (a ++ t) b =
        countEvenSeps d a b + countEvenSeps d t (flipB a b) := by
  induction a with
  | nil => intro t b; simp [countEvenSeps, flipB]
  | cons c rest ih =>
    intro t b
    by_cases hc : c = '"'
    · subst hc
      rw [List.cons_append, countEvenSeps_cons_quote, countEvenSeps_cons_quote,
        flipB_cons_quote, ih]
    · rw [List.cons_append, countEvenSeps_cons_other d c _ b hc,
        countEvenSeps_cons_other d c rest b hc, flipB_cons_other c rest b hc, ih]
      omega

theorem countEvenSeps_eq_zero (d : Char) (l : List Char) :
    ∀ b, noEvenDelim d l b = true → countEvenSeps d l b = 0 := by
  induction l with
  | nil => intro b _; rfl
  | cons c rest ih =>
    intro b h
    by_cases hc : c = '"'
    · subst hc
      rw [noEvenDelim_cons_quote] at h
      rw [countEvenSeps_cons_quote]
      exact ih (!b) h
    · rw [noEvenDelim_cons_other d c rest b hc] at h
      rw [countEvenSeps_cons_other d c rest b hc]
      by_cases hcd : c = d ∧ b = false
      · rw [if_pos hcd] at h
        exact Bool.noConfusion h
      · rw [if_neg hcd] at h
        rw [if_neg hcd, ih b h]

/-- Joining inert fields with the delimiter itself puts exactly
`fields.length - 1` delimiter occurrences at even parity into the line. -/
theorem countEvenSeps_joinSep (d : Char) (hd : d ≠ '"') :
    ∀ (fields : List (List Char)), (∀ f ∈ fields, Inert d f) → fields ≠ [] →
      countEvenSeps d (joinSep [d] fields) false = fields.length - 1 := by
  intro fields
  induction fields with
  | nil => intro _ hne; exact absurd rfl hne
  | cons f t ih =>
    intro h hne
    cases t with
    | nil =>
      have hf := h f (by simp)
      show countEvenSeps d (joinSep [d] [f]) false = 0
      rw [show joinSep [d] [f] = f from rfl]
      exact countEvenSeps_eq_zero d f false hf.2
    | cons g t2 =>
      have hf := h f (by simp)
      rw [joinSep_cons_cons,
        show f ++ [d] ++ joinSep [d] (g :: t2) =
          f ++ (d :: joinSep [d] (g :: t2)) by simp,
        countEvenSeps_append d f _ false, flipB_even f false hf.1,
        countEvenSeps_eq_zero d f false hf.2,
        countEvenSeps_cons_other d d _ false hd, if_pos ⟨rfl, rfl⟩,
        ih (fun x hx => h x (List.mem_cons_of_mem f hx)) (by simp)]
      simp
      omega

theorem count_quote_joinSep (e : Char) (he : e ≠ '"') :
    ∀ (fields : List (List Char)), (∀ f ∈ fields, f.count '"' % 2 = 0) →
      (joinSep [e] fields).count '"' % 2 = 0 := by
  intro fields
  induction fields with
  | nil => intro _; rfl
  | cons f t ih =>
    intro h
    cases t with
    | nil => exact h f (by simp)
    | cons g t2 =>
      rw [joinSep_cons_cons, List.count_append, List.count_append]
      have h1 := h f (by simp)
      have h2 := ih fun x hx => h x (List.mem_cons_of_mem f hx)
      have h3 : List.count '"' [e] = 0 := by
        refine List.count_eq_zero.mpr ?_
        simp only [List.mem_singleton]
        exact fun hh => he hh.symm
      omega

theorem fieldsOf_getLast (r : Row) (m : Nat) (hm : 1 ≤ m) :
    (fieldsOf r m).getLast? = some ((r.cells.getD (m - 1) cellNull).rawValue) := by
  unfold fieldsOf
  obtain ⟨k, rfl⟩ : ∃ k, m = k + 1 := ⟨m - 1, by omega⟩
  rw [List.range_succ, List.map_append]
  simp

/-- A rendered line ends with an even-parity separator exactly when the row
is padded to at least two fields and its final rendered field is empty. -/
theorem endsEvenSep_joinSep_iff (sep : Char) (hs2 : sep ≠ '"') (r : Row) (m : Nat)
    (hm : 1 ≤ m) (hfe : ∀ f ∈ fieldsOf r m, Inert sep f) :
    endsEvenSep sep (joinSep [sep] (fieldsOf r m)) ↔
      2 ≤ m ∧ (r.cells.getD (m - 1) cellNull).rawValue = [] := by
  have hgl := fieldsOf_getLast r m hm
  constructor
  · rintro ⟨hlast, hcount⟩
    by_cases hgnil : (r.cells.getD (m - 1) cellNull).rawValue = []
    · refine ⟨?_, hgnil⟩
      by_contra hm2
      have hm1 : m = 1 := by omega
      subst hm1
      have hf1 : fieldsOf r 1 = [(r.cells.getD 0 cellNull).rawValue] := by
        unfold fieldsOf
        rfl
      rw [hf1, show joinSep [sep] [(r.cells.getD 0 cellNull).rawValue] =
        (r.cells.getD 0 cellNull).rawValue from rfl] at hlast
      rw [show (1 : Nat) - 1 = 0 from rfl] at hgnil
      rw [hgnil] at hlast
      simp at hlast
    · exfalso
      have hrw := joinSep_getLast_of_ne sep (fieldsOf r m) _ hgl hgnil
      rw [hrw] at hlast
      have hmem : (r.cells.getD (m - 1) cellNull).rawValue ∈ fieldsOf r m := by
        unfold fieldsOf
        refine List.mem_map.mpr ⟨m - 1, ?_, rfl⟩
        rw [List.mem_range]
        omega
      exact inert_getLast_ne sep hs2 _ (hfe _ hmem) hlast
  · rintro ⟨hm2, hgnil⟩
    constructor
    · rw [hgnil] at hgl
      exact joinSep_getLast_of_last_nil sep (fieldsOf r m)
        (by rw [fieldsOf_length]; omega) hgl
    · exact count_quote_joinSep sep hs2 (fieldsOf r m) fun f hf => (hfe f hf).1

/-- Claim C8 (amended): for a canonical document with `max_row_length = m ≥ 1`,
the serialized text is the newline-join of the rendered rows; every rendered
line contains exactly `m - 1` separator occurrences at even quote parity; and
a line ends with an even-parity separator exactly when `m ≥ 2` and the row's
final padded field is empty (so no separator is ever emitted after a final
non-empty field). -/
theorem C8_uniform_separators (sep : Char) (d : Csv) (hs2 : sep ≠ '"')
    (hcanon : CsvCanonical sep d) (hm : 1 ≤ d.max_row_length) :
    Csv.toString sep d =
      joinSep ['\n'] (d.rows.map fun r => r.toStringPadded sep d.max_row_length) ∧
    ∀ r ∈ d.rows,
      countEvenSeps sep (r.toStringPadded sep d.max_row_length) false =
        d.max_row_length - 1 ∧
      (endsEvenSep sep (r.toStringPadded sep d.max_row_length) ↔
        2 ≤ d.max_row_length ∧
          (r.cells.getD (d.max_row_length - 1) cellNull).rawValue = []) := by
  refine ⟨rfl, ?_⟩
  intro r hr
  have hminr := min_size_le_max_row_length d r hr
  have hfe := inert_fieldsOf sep sep hs2 (Or.inr rfl) r d.max_row_length (hcanon r hr)
  rw [toStringPadded_eq sep r _ hminr]
  constructor
  · rw [countEvenSeps_joinSep sep hs2 _ hfe (by
      intro hnil
      have := congrArg List.length hnil
      rw [fieldsOf_length] at this
      simp at this
      omega)]
    rw [fieldsOf_length]
  · exact endsEvenSep_joinSep_iff sep hs2 r d.max_row_length hm hfe

/-- Witness for claim C8 at the canonical document `[["a","b"],["c"]]` with
`max_row_length = 2`. -/
theorem C8_uniform_separators_witness :
    (CsvCanonical ';' ⟨[⟨[⟨['a']⟩, ⟨['b']⟩]⟩, ⟨[⟨['c']⟩]⟩]⟩ ∧
      1 ≤ (⟨[⟨[⟨['a']⟩, ⟨['b']⟩]⟩, ⟨[⟨['c']⟩]⟩]⟩ : Csv).max_row_length) ∧
    (∀ r ∈ (⟨[⟨[⟨['a']⟩, ⟨['b']⟩]⟩, ⟨[⟨['c']⟩]⟩]⟩ : Csv).rows,
      countEvenSeps ';' (r.toStringPadded ';'
        (⟨[⟨[⟨['a']⟩, ⟨['b']⟩]⟩, ⟨[⟨['c']⟩]⟩]⟩ : Csv).max_row_length) false =
        (⟨[⟨[⟨['a']⟩, ⟨['b']⟩]⟩, ⟨[⟨['c']⟩]⟩]⟩ : Csv).max_row_length - 1 ∧
      (endsEvenSep ';' (r.toStringPadded ';'
          (⟨[⟨[⟨['a']⟩, ⟨['b']⟩]⟩, ⟨[⟨['c']⟩]⟩]⟩ : Csv).max_row_length) ↔
        2 ≤ (⟨[⟨[⟨['a']⟩, ⟨['b']⟩]⟩, ⟨[⟨['c']⟩]⟩]⟩ : Csv).max_row_length ∧
          (r.cells.getD ((⟨[⟨[⟨['a']⟩, ⟨['b']⟩]⟩, ⟨[⟨['c']⟩]⟩]⟩ : Csv).max_row_length - 1)
            cellNull).rawValue = [])) := by
  have hcanon : CsvCanonical ';' ⟨[⟨[⟨['a']⟩, ⟨['b']⟩]⟩, ⟨[⟨['c']⟩]⟩]⟩ := by
    intro r hr c hc
    simp only [List.mem_cons, List.mem_singleton] at hr
    rcases hr with rfl | rfl | h
    · simp only [List.mem_cons, List.mem_singleton] at hc
      rcases hc with rfl | rfl | h
      · exact ⟨['a'], by decide⟩
      · exact ⟨['b'], by decide⟩
      · simp at h
    · simp only [List.mem_singleton] at hc
      subst hc
      exact ⟨['c'], by decide⟩
    · simp at h
  exact ⟨⟨hcanon, by decide⟩,
    (C8_uniform_separators ';' ⟨[⟨[⟨['a']⟩, ⟨['b']⟩]⟩, ⟨[⟨['c']⟩]⟩]⟩ (by decide)
      hcanon (by decide)).2⟩

/-- Counterexample to claim C8 as stated: in the canonical document
`[["a","b"],["c"]]` the second row renders as `"c;"` — a line of the
serialized text that does end with a separator at even quote parity (the
final padded field is empty), contradicting "no line ends with a separator
character at even quote parity". -/
theorem C8_counterexample :
    Csv.toString ';' ⟨[⟨[⟨['a']⟩, ⟨['b']⟩]⟩, ⟨[⟨['c']⟩]⟩]⟩ = "a;b\nc;".toList ∧
    (⟨[⟨[⟨['a']⟩, ⟨['b']⟩]⟩, ⟨[⟨['c']⟩]⟩]⟩ : Csv).max_row_length = 2 ∧
    Row.toStringPadded ';' ⟨[⟨['c']⟩]⟩ 2 = "c;".toList ∧
    endsEvenSep ';' "c;".toList := by
  refine ⟨by decide, by decide, by decide, by decide⟩

/-! ## FileTable: index translation lemmas -/

theorem translateLine_cons (d : Nat) (ds : List Nat) (l : Nat) :
    translateLine (d :: ds) l = if d ≤ l then translateLine ds (l + 1) else l := rfl

theorem trans_ge (tD : List Nat) : ∀ l, l ≤ translateLine tD l := by
  induction tD with
  | nil => intro l; exact le_refl l
  | cons d ds ih =>
    intro l
    rw [translateLine_cons]
    by_cases hd : d ≤ l
    · rw [if_pos hd]
      exact le_trans (Nat.le_succ l) (ih (l + 1))
    · rw [if_neg hd]

theorem trans_le (tD : List Nat) : ∀ l, translateLine tD l ≤ l + tD.length := by
  induction tD with
  | nil => intro l; simp [translateLine]
  | cons d ds ih =>
    intro l
    rw [translateLine_cons]
    by_cases hd : d ≤ l
    · rw [if_pos hd]
      exact le_trans (ih (l + 1)) (by simp only [List.length_cons]; omega)
    · rw [if_neg hd]
      simp

theorem trans_mono (tD : List Nat) : ∀ a b, a ≤ b →
    translateLine tD a ≤ translateLine tD b := by
  induction tD with
  | nil => intro a b h; exact h
  | cons d ds ih =>
    intro a b h
    rw [translateLine_cons, translateLine_cons]
    by_cases hda : d ≤ a
    · rw [if_pos hda, if_pos (le_trans hda h)]
      exact ih (a + 1) (b + 1) (by omega)
    · rw [if_neg hda]
      by_cases hdb : d ≤ b
      · rw [if_pos hdb]
        exact le_trans (le_trans h (Nat.le_succ b)) (trans_ge ds (b + 1))
      · rw [if_neg hdb]
        exact h

theorem trans_succ (tD : List Nat) : ∀ a,
    translateLine tD a + 1 ≤ translateLine tD (a + 1) := by
  induction tD with
  | nil => intro a; exact le_refl (a + 1)
  | cons d ds ih =>
    intro a
    rw [translateLine_cons, translateLine_cons]
    by_cases hda : d ≤ a
    · rw [if_pos hda, if_pos (by omega : d ≤ a + 1)]
      exact ih (a + 1)
    · rw [if_neg hda]
      by_cases hdb : d ≤ a + 1
      · rw [if_pos hdb]
        exact le_trans (by omega) (trans_ge ds (a + 1 + 1))
      · rw [if_neg hdb]

theorem trans_strict_mono (tD : List Nat) (a b : Nat) (h : a < b) :
    translateLine tD a < translateLine tD b := by
  have h1 := trans_succ tD a
  have h2 := trans_mono tD (a + 1) b h
  omega

/-- Erasing logical index `i` and then reading logical index `j ≥ i` through
the translation observes the physical line formerly at logical `j + 1`. -/
theorem trans_insert (tD : List Nat) : ∀ (i j : Nat), i ≤ j →
    translateLine (List.orderedInsert (· ≤ ·) (translateLine tD i) tD) j =
      translateLine tD (j + 1) := by
  induction tD with
  | nil =>
    intro i j hij
    show translateLine [i] j = j + 1
    rw [translateLine_cons, if_pos hij]
    rfl
  | cons d ds ih =>
    intro i j hij
    by_cases hd : d ≤ i
    · have ht' : translateLine (d :: ds) i = translateLine ds (i + 1) := by
        rw [translateLine_cons, if_pos hd]
      rw [ht']
      have htgt : ¬(translateLine ds (i + 1) ≤ d) := by
        have := trans_ge ds (i + 1)
        omega
      have hoi : List.orderedInsert (· ≤ ·) (translateLine ds (i + 1)) (d :: ds) =
          d :: List.orderedInsert (· ≤ ·) (translateLine ds (i + 1)) ds := by
        rw [List.orderedInsert, if_neg htgt]
      rw [hoi]
      rw [show translateLine
          (d :: List.orderedInsert (· ≤ ·) (translateLine ds (i + 1)) ds) j =
          translateLine (List.orderedInsert (· ≤ ·) (translateLine ds (i + 1)) ds)
            (j + 1) from by rw [translateLine_cons, if_pos (le_trans hd hij)]]
      rw [show translateLine (d :: ds) (j + 1) = translateLine ds (j + 1 + 1) from by
        rw [translateLine_cons, if_pos (by omega : d ≤ j + 1)]]
      exact ih (i + 1) (j + 1) (by omega)
    · have ht' : translateLine (d :: ds) i = i := by
        rw [translateLine_cons, if_neg hd]
      rw [ht']
      have hoi : List.orderedInsert (· ≤ ·) i (d :: ds) = i :: d :: ds := by
        rw [List.orderedInsert, if_pos (by omega : i ≤ d)]
      rw [hoi, translateLine_cons, if_pos hij]

theorem insertionSort_append_singleton (tD : List Nat) (t : Nat)
    (hsort : List.Pairwise (· ≤ ·) tD) :
    List.insertionSort (· ≤ ·) (tD ++ [t]) = List.orderedInsert (· ≤ ·) t tD := by
  haveI : IsAntisymm Nat (· ≤ ·) := ⟨fun _ _ h1 h2 => le_antisymm h1 h2⟩
  exact List.eq_of_perm_of_sorted
    (((List.perm_insertionSort _ _).trans
      (List.perm_append_singleton t tD)).trans
      (List.perm_orderedInsert _ t tD).symm)
    (List.sorted_insertionSort _ _)
    (List.Sorted.orderedInsert t tD hsort)

theorem cacheFind?_erase_ne (t k : Nat) (h : k ≠ t) :
    ∀ (c : List (Nat × Row)),
      cacheFind? (cacheErase c t) k = cacheFind? c k := by
  intro c
  induction c with
  | nil => rfl
  | cons p rest ih =>
    by_cases hpt : p.1 = t
    · have h1 : cacheErase (p :: rest) t = cacheErase rest t := by
        simp [cacheErase, List.filter_cons, hpt]
      have h2 : cacheFind? (p :: rest) k = cacheFind? rest k := by
        unfold cacheFind?
        rw [List.find?_cons_of_neg _ (by
          simp only [decide_eq_true_eq, hpt]
          exact fun hh => h hh.symm)]
      rw [h1, h2, ih]
    · have h1 : cacheErase (p :: rest) t = p :: cacheErase rest t := by
        simp [cacheErase, List.filter_cons, hpt]
      rw [h1]
      by_cases hpk : p.1 = k
      · unfold cacheFind?
        rw [List.find?_cons_of_pos _ (by simp [hpk]),
          List.find?_cons_of_pos _ (by simp [hpk])]
      · unfold cacheFind?
        rw [List.find?_cons_of_neg _ (by simp [hpk]),
          List.find?_cons_of_neg _ (by simp [hpk])]
        exact ih

theorem foldl_max_le_of (B : Nat) :
    ∀ (c : List (Nat × Row)) (a : Nat), a ≤ B → (∀ p ∈ c, p.1 ≤ B) →
      c.foldl (fun m p => Nat.max m p.1) a ≤ B := by
  intro c
  induction c with
  | nil => intro a ha _; exact ha
  | cons p rest ih =>
    intro a ha h
    exact ih (Nat.max a p.1) (Nat.max_le.mpr ⟨ha, h p (by simp)⟩)
      fun q hq => h q (List.mem_cons_of_mem p hq)

/-- When every cache key is bounded by the file/current-line maximum, the
translated max index ignores the cache. -/
theorem tm_eq_of_keys (ft : FileTable)
    (hkeys : ∀ p ∈ ft.cache, p.1 ≤ Nat.max (countNl ft.content) ft.currentLine) :
    getTranslatedMaxLineIndex ft = Nat.max (countNl ft.content) ft.currentLine := by
  unfold getTranslatedMaxLineIndex
  split
  · rfl
  · have hcm : cacheMax ft.cache ≤ Nat.max (countNl ft.content) ft.currentLine :=
      foldl_max_le_of _ ft.cache 0 (Nat.zero_le _) hkeys
    apply le_antisymm
    · refine Nat.max_le.mpr ⟨Nat.max_le.mpr ⟨?_, ?_⟩, ?_⟩
      · exact le_trans (Nat.le_max_left _ _) (le_refl _)
      · exact le_trans hcm (le_refl _)
      · exact Nat.le_max_right _ _
    · refine Nat.max_le.mpr ⟨?_, ?_⟩
      · exact le_trans (Nat.le_max_left _ _) (Nat.le_max_left _ _)
      · exact Nat.le_max_right _ _

theorem getMaxLineIndex_eq (ft : FileTable)
    (htd : ft.toDelete.length ≤ getTranslatedMaxLineIndex ft)
    (htm : getTranslatedMaxLineIndex ft < u64) :
    getMaxLineIndex ft = getTranslatedMaxLineIndex ft - ft.toDelete.length := by
  unfold getMaxLineIndex
  simp only [u64] at htm ⊢
  omega

theorem findAux_no_iore (d : Char) :
    ∀ (l : List Char) (pos : Nat) (b : Bool),
      findAux d l pos b ≠ .error .indexOutOfRange := by
  intro l
  induction l with
  | nil =>
    intro pos b
    unfold findAux
    split <;> simp
  | cons c rest ih =>
    intro pos b
    unfold findAux
    split
    · exact ih _ _
    · split
      · simp
      · exact ih _ _

theorem splitLoop_no_iore (d : Char) (s : List Char) :
    ∀ (fuel prev : Nat), splitLoop d s prev fuel ≠ .error .indexOutOfRange := by
  intro fuel
  induction fuel with
  | zero =>
    intro prev
    simp [splitLoop]
  | succ n ih =>
    intro prev
    rw [splitLoop]
    cases hf : find s prev d with
    | error e =>
      have := findAux_no_iore d (s.drop prev) prev false
      rw [find] at hf
      rw [hf] at this
      dsimp only
      intro hcon
      obtain rfl := (Except.error.inj hcon)
      exact this rfl
    | ok po =>
      dsimp only
      split
      · cases hr : splitLoop d s _ n with
        | error e =>
          intro hcon
          obtain rfl := Except.error.inj hcon
          exact ih _ hr
        | ok ts => simp
      · simp

theorem splitString_no_iore (s : List Char) (d : Char) :
    splitString s d ≠ .error .indexOutOfRange := by
  rw [splitString]
  cases hs : splitLoop d s 0 (s.length + 1) with
  | error e =>
    intro hcon
    obtain rfl := Except.error.inj hcon
    exact splitLoop_no_iore d s _ 0 hs
  | ok ts => simp

theorem rowParse_no_iore (sep : Char) (v : List Char) :
    Row.parse sep v ≠ .error .indexOutOfRange := by
  rw [Row.parse]
  split
  · simp
  · cases hs : splitString v sep with
    | error e =>
      intro hcon
      obtain rfl := Except.error.inj hcon
      exact splitString_no_iore v sep hs
    | ok ts => simp

/-! ## FileTable claims C10, C6, C2 -/

/-- Claim C10: a freshly constructed FileTable over an empty backing file has
`size() = 0`, yet const `at(0)` does not raise IndexOutOfRange but returns an
empty row: the range check compares against the logical max index (0 for the
empty table), not against `size()`. -/
theorem C10_empty_table_size_vs_at :
    (openTable [] 100).size = 0 ∧
    getMaxLineIndex (openTable [] 100) = 0 ∧
    atConst ';' (openTable [] 100) 0 = .ok ⟨[]⟩ :=
  ⟨by decide, by decide, by decide⟩

/-- The const read path reports IndexOutOfRange exactly for indices above the
logical max, in states where the `uint64_t` subtraction in `getMaxLineIndex`
does not wrap. -/
theorem atConst_iore_iff (sep : Char) (ft : FileTable) (i : Nat)
    (htd : ft.toDelete.length ≤ getTranslatedMaxLineIndex ft)
    (htm : getTranslatedMaxLineIndex ft < u64) :
    atConst sep ft i = .error .indexOutOfRange ↔ getMaxLineIndex ft < i := by
  have hmax := getMaxLineIndex_eq ft htd htm
  constructor
  · intro h
    by_contra hlt
    push_neg at hlt
    rw [atConst, if_neg (by omega)] at h
    rw [getLineFromFile] at h
    have htr : translateLine ft.toDelete i ≤ getTranslatedMaxLineIndex ft := by
      have := trans_le ft.toDelete i
      omega
    rw [if_neg (by omega)] at h
    cases hc : cacheFind? ft.cache (translateLine ft.toDelete i) with
    | some r =>
      rw [hc] at h
      exact absurd h (by simp)
    | none =>
      rw [hc] at h
      dsimp only at h
      split at h
      · exact absurd h (by simp)
      · exact rowParse_no_iore sep _ h
  · intro h
    rw [atConst, if_pos (by omega)]

/-- When no automatic flush fires, `erase` reports IndexOutOfRange exactly
for indices above the logical max. -/
theorem erase_iore_iff (sep : Char) (ft : FileTable) (i : Nat)
    (hnf : getCacheSize ft + 1 < ft.maxCached) :
    ft.erase sep i = .error .indexOutOfRange ↔ getMaxLineIndex ft < i := by
  constructor
  · intro h
    by_contra hlt
    push_neg at hlt
    rw [FileTable.erase, if_neg (by omega)] at h
    dsimp only at h
    rw [if_neg ?hc] at h
    case hc =>
      unfold getCacheSize at hnf ⊢
      have h1 : (cacheErase ft.cache (translateLine ft.toDelete i)).length ≤
          ft.cache.length := List.length_filter_le _ _
      have h2 : (List.insertionSort (· ≤ ·)
          (ft.toDelete ++ [translateLine ft.toDelete i])).length =
          ft.toDelete.length + 1 := by
        rw [(List.perm_insertionSort (· ≤ ·) _).length_eq]
        simp
      simp only
      omega
    exact absurd h (by simp)
  · intro h
    rw [FileTable.erase, if_pos (by omega)]

/-- Claim C6 (amended): in states where the translated max index is at least
the number of pending deletions (no `uint64_t` wrap in `getMaxLineIndex`) and
the operation triggers no automatic flush, const `at(i)` (hence const
`operator[]`) raises IndexOutOfRange iff `i` exceeds the logical max index,
and `erase(i)` raises IndexOutOfRange iff `i` exceeds the logical max
index. -/
theorem C6_range_check (sep : Char) (ft : FileTable) (i : Nat)
    (htd : ft.toDelete.length ≤ getTranslatedMaxLineIndex ft)
    (htm : getTranslatedMaxLineIndex ft < u64)
    (hnf : getCacheSize ft + 1 < ft.maxCached) :
    (atConst sep ft i = .error .indexOutOfRange ↔ getMaxLineIndex ft < i) ∧
    (ft.erase sep i = .error .indexOutOfRange ↔ getMaxLineIndex ft < i) :=
  ⟨atConst_iore_iff sep ft i htd htm, erase_iore_iff sep ft i hnf⟩

/-- Witness for claim C6 on a two-line file at the out-of-range index 5 (and
the iff also certifies the in-range side). -/
theorem C6_range_check_witness :
    ((openTable "a\nb".toList 100).toDelete.length ≤
        getTranslatedMaxLineIndex (openTable "a\nb".toList 100) ∧
      getTranslatedMaxLineIndex (openTable "a\nb".toList 100) < u64 ∧
      getCacheSize (openTable "a\nb".toList 100) + 1 <
        (openTable "a\nb".toList 100).maxCached) ∧
    ((atConst ';' (openTable "a\nb".toList 100) 5 = .error .indexOutOfRange ↔
        getMaxLineIndex (openTable "a\nb".toList 100) < 5) ∧
      ((openTable "a\nb".toList 100).erase ';' 5 = .error .indexOutOfRange ↔
        getMaxLineIndex (openTable "a\nb".toList 100) < 5)) :=
  ⟨⟨by decide, by decide, by decide⟩,
    C6_range_check ';' (openTable "a\nb".toList 100) 5 (by decide) (by decide)
      (by decide)⟩

/-- Counterexample to claim C6 as universally stated: erasing index 0 of a
fresh table over an empty file succeeds and leaves a state whose
`getMaxLineIndex` wraps to `2^64 - 1`; const `at(0)` then raises
IndexOutOfRange even though 0 does not exceed that logical max index. -/
theorem C6_counterexample :
    FileTable.erase ';' (openTable [] 100) 0 = .ok ⟨[0], 100, [], [], 0⟩ ∧
    atConst ';' (⟨[0], 100, [], [], 0⟩ : FileTable) 0 = .error .indexOutOfRange ∧
    getMaxLineIndex (⟨[0], 100, [], [], 0⟩ : FileTable) = u64 - 1 ∧
    ¬(getMaxLineIndex (⟨[0], 100, [], [], 0⟩ : FileTable) < 0) :=
  ⟨by decide, by decide, by decide, Nat.not_lt_zero _⟩

/-- Claim C2: after `erase(i)` (no flush triggered), reading logical index
`j ≥ i` observes exactly what logical index `j + 1` observed before the
erase; and on the concrete three-row table `["a","b","c"]`, after `erase 1`
the reads give rows `"a"` and `"c"` both before and after an explicit flush,
and the flushed file has exactly the 2 lines `"a"` and `"c"`. -/
theorem C2_erase_index_translation (sep : Char) (ft : FileTable) (i j : Nat)
    (hsort : List.Pairwise (· ≤ ·) ft.toDelete)
    (hkeys : ∀ p ∈ ft.cache, p.1 ≤ Nat.max (countNl ft.content) ft.currentLine)
    (htm : getTranslatedMaxLineIndex ft < u64)
    (hnf : getCacheSize ft + 1 < ft.maxCached)
    (hij : i ≤ j) (hj : j + 1 ≤ getTranslatedMaxLineIndex ft - ft.toDelete.length)
    (htd : ft.toDelete.length ≤ getTranslatedMaxLineIndex ft) :
    (∃ ft', ft.erase sep i = .ok ft' ∧ atConst sep ft' j = atConst sep ft (j + 1)) ∧
    (FileTable.erase ';' (openTable "a\nb\nc".toList 100) 1 =
        .ok ⟨[1], 100, [], "a\nb\nc".toList, 2⟩ ∧
      atConst ';' (⟨[1], 100, [], "a\nb\nc".toList, 2⟩ : FileTable) 0 =
        .ok ⟨[⟨['a']⟩]⟩ ∧
      atConst ';' (⟨[1], 100, [], "a\nb\nc".toList, 2⟩ : FileTable) 1 =
        .ok ⟨[⟨['c']⟩]⟩ ∧
      FileTable.flush ';' (⟨[1], 100, [], "a\nb\nc".toList, 2⟩ : FileTable) =
        .ok ⟨[], 100, [], "a\nc".toList, 1⟩ ∧
      getlineLines "a\nc".toList = ["a".toList, "c".toList] ∧
      atConst ';' (⟨[], 100, [], "a\nc".toList, 1⟩ : FileTable) 0 =
        .ok ⟨[⟨['a']⟩]⟩ ∧
      atConst ';' (⟨[], 100, [], "a\nc".toList, 1⟩ : FileTable) 1 =
        .ok ⟨[⟨['c']⟩]⟩) := by
  refine ⟨?_, by decide, by decide, by decide, by decide, by decide, by decide,
    by decide⟩
  have hmax := getMaxLineIndex_eq ft htd htm
  have htmeq := tm_eq_of_keys ft hkeys
  rw [FileTable.erase, if_neg (by omega)]
  dsimp only
  rw [if_neg ?hc]
  case hc =>
    unfold getCacheSize at hnf ⊢
    have h1 : (cacheErase ft.cache (translateLine ft.toDelete i)).length ≤
        ft.cache.length := List.length_filter_le _ _
    have h2 : (List.insertionSort (· ≤ ·)
        (ft.toDelete ++ [translateLine ft.toDelete i])).length =
        ft.toDelete.length + 1 := by
      rw [(List.perm_insertionSort (· ≤ ·) _).length_eq]
      simp
    simp only
    omega
  refine ⟨_, rfl, ?_⟩
  set t := translateLine ft.toDelete i with htdef
  set ft' : FileTable :=
    { ft with cache := cacheErase ft.cache t,
              toDelete := List.insertionSort (· ≤ ·) (ft.toDelete ++ [t]) }
    with hft'
  have htd' : ft'.toDelete = List.orderedInsert (· ≤ ·) t ft.toDelete :=
    insertionSort_append_singleton ft.toDelete t hsort
  have hkeys' : ∀ p ∈ ft'.cache, p.1 ≤
      Nat.max (countNl ft'.content) ft'.currentLine := by
    intro p hp
    exact hkeys p (List.mem_of_mem_filter hp)
  have htm' : getTranslatedMaxLineIndex ft' = getTranslatedMaxLineIndex ft := by
    rw [tm_eq_of_keys ft' hkeys', htmeq]
  have hlen' : ft'.toDelete.length = ft.toDelete.length + 1 := by
    rw [htd', (List.perm_orderedInsert (· ≤ ·) t ft.toDelete).length_eq]
    rfl
  have hmax' : getMaxLineIndex ft' =
      getTranslatedMaxLineIndex ft - (ft.toDelete.length + 1) := by
    rw [getMaxLineIndex_eq ft' (by rw [htm', hlen']; omega)
      (by rw [htm']; exact htm), htm', hlen']
  have htreq : translateLine ft'.toDelete j = translateLine ft.toDelete (j + 1) := by
    rw [htd', htdef]
    exact trans_insert ft.toDelete i j hij
  have htrle : translateLine ft.toDelete (j + 1) ≤ getTranslatedMaxLineIndex ft := by
    have := trans_le ft.toDelete (j + 1)
    omega
  have hcfind : cacheFind? ft'.cache (translateLine ft.toDelete (j + 1)) =
      cacheFind? ft.cache (translateLine ft.toDelete (j + 1)) := by
    have hne : translateLine ft.toDelete (j + 1) ≠ t := by
      rw [htdef]
      have := trans_strict_mono ft.toDelete i (j + 1) (by omega)
      omega
    exact cacheFind?_erase_ne t _ hne ft.cache
  rw [atConst, atConst, if_neg (by rw [hmax']; omega), if_neg (by omega)]
  rw [getLineFromFile, getLineFromFile, htreq, htm', hcfind]

/-- Witness for claim C2 on the three-row table, erasing index 1 and reading
index 1 (which observes former index 2). -/
theorem C2_erase_index_translation_witness :
    (List.Pairwise (· ≤ ·) (openTable "a\nb\nc".toList 100).toDelete ∧
      getTranslatedMaxLineIndex (openTable "a\nb\nc".toList 100) < u64 ∧
      1 + 1 ≤ getTranslatedMaxLineIndex (openTable "a\nb\nc".toList 100) -
        (openTable "a\nb\nc".toList 100).toDelete.length) ∧
    (∃ ft', (openTable "a\nb\nc".toList 100).erase ';' 1 = .ok ft' ∧
      atConst ';' ft' 1 = atConst ';' (openTable "a\nb\nc".toList 100) (1 + 1)) :=
  ⟨⟨by decide, by decide, by decide⟩,
    (C2_erase_index_translation ';' (openTable "a\nb\nc".toList 100) 1 1
      (by decide) (fun p hp => absurd hp (List.not_mem_nil p)) (by decide)
      (by decide) (by decide) (by decide) (by decide)).1⟩

end MarkusjxCsv
